import Mathlib

/-!
# Verification of the barcode clustering core of `st_pipeline`

Shallow embedding of `stpipeline/common/clustering.py`: the barcode
extractor `extractMolecularBarcodes` and the three clustering strategies
`countMolecularBarcodesClustersNaive`, `countMolecularBarcodesPrefixtrie`
and `countMolecularBarcodesClustersHierarchical`.

Reads are opaque handles (a type parameter `ρ`); a molecular-barcode
record is the pair `(molecular_barcode, read)` that the Python code
carries as a tuple.  Python's `random.choice` is modelled by an explicit
choice-function parameter; theorems that depend on the chosen element
carry the hypothesis that the choice function returns a member of its
(nonempty) argument.
-/

namespace STPipeline

universe u

variable {ρ : Type u} {α : Type u}

/-- A molecular-barcode record: the tuple `(molecular_barcode, read)` used by
all three clusterers.  Barcodes are strings, modelled as `List Char`. -/
abbrev MolB (ρ : Type u) := List Char × ρ

/-- Modelled from the spec: `hamming_distance` lives in
`stpipeline/common/distance.py`, which is not under `src/`; the spec defines
it as the count of positions at which two equal-length strings differ and
says it fails with `LengthMismatchError` on unequal lengths.  The model is a
total function; theorems invoke it only at equal-length arguments, where it
agrees with the spec. -/
def hamming_distance (a b : List Char) : ℕ :=
  (a.zip b).countP (fun p => decide (p.1 ≠ p.2))

/-- Modelled from the spec: the `counttrie` neighborhood search with
`allow_indels = True` "tolerates insertions/deletions in addition to
substitutions"; standard Levenshtein edit distance. -/
def levenshtein_distance : List Char → List Char → ℕ
  | [], b => b.length
  | a :: as, [] => (a :: as).length
  | a :: as, b :: bs =>
    if a = b then levenshtein_distance as bs
    else 1 + min (levenshtein_distance as bs)
            (min (levenshtein_distance (a :: as) bs) (levenshtein_distance as (b :: bs)))
termination_by a b => a.length + b.length
decreasing_by
  all_goals simp [List.length_cons]
  all_goals omega

/-- Python slice `seq[s:e]` for `0 ≤ s ≤ e` (the only case reached after the
extractor's assertion): elements at indices `s .. e-1`, truncated at the end
of the sequence. -/
def pySlice (seq : List Char) (s e : ℤ) : List Char :=
  (seq.drop s.toNat).take (e.toNat - s.toNat)

/-- Sort key of `sorted(..., key=lambda x: (x[0], -x[2], x[3]))`:
barcode ascending, occurrence count descending, N-count ascending. -/
def extRel (a b : List Char × (List Char × ρ) × ℕ × ℕ) : Prop :=
  a.1 < b.1 ∨ (a.1 = b.1 ∧ (b.2.2.1 < a.2.2.1 ∨
    (a.2.2.1 = b.2.2.1 ∧ a.2.2.2 ≤ b.2.2.2)))

instance extRel.decidableRel : DecidableRel (@extRel ρ) := fun a b => by
  unfold extRel
  infer_instance

/-- `extractMolecularBarcodes(reads, mc_start_position, mc_end_position)`.
A read is a tuple whose first position is its sequence.  The Python
`assert(mc_end_position > mc_start_position and mc_start_position >= 0)` is
modelled by returning `none` when the offsets are invalid (the failure
happens before any work, so no partial result exists).  Each record is
`(molecular_barcode, read, occurrences, number_of_Ns)`. -/
def extractMolecularBarcodes (reads : List (List Char × ρ))
    (mc_start_position mc_end_position : ℤ) :
    Option (List (List Char × (List Char × ρ) × ℕ × ℕ)) :=
  if mc_end_position > mc_start_position ∧ mc_start_position ≥ 0 then
    let molecular_barcodes :=
      reads.map (fun read => (pySlice read.1 mc_start_position mc_end_position, read))
    let molecular_barcodes_count_list :=
      molecular_barcodes.map (fun mc =>
        (mc.1, mc.2, (molecular_barcodes.map (·.1)).count mc.1, mc.1.count 'N'))
    some (List.insertionSort extRel molecular_barcodes_count_list)
  else
    none

/-- Shared representative-selection policy (the final loop of the naive and
hierarchical clusterers): a cluster of at least `min_cluster_size` members
collapses to one chosen member's read, a smaller cluster emits every
member's read. -/
def resolveClusters (choice : List (MolB ρ) → MolB ρ) (min_cluster_size : ℕ)
    (cls : List (List (MolB ρ))) : List ρ :=
  cls.flatMap (fun members =>
    if min_cluster_size ≤ members.length then [(choice members).2]
    else members.map (·.2))

/-- The sweep loop of `countMolecularBarcodesClustersNaive`: walk the (already
sorted) remaining records keeping the current cluster; `lastRec` is the last
record added to the current cluster (`clusters_dict[nclusters][-1]`) and
`restRev` the rest of the current cluster, most recent first. -/
def chainSweep (near : α → α → Bool) : α → List α → List α → List (List α)
  | lastRec, restRev, [] => [(lastRec :: restRev).reverse]
  | lastRec, restRev, y :: ys =>
    if near lastRec y then
      chainSweep near y (lastRec :: restRev) ys
    else
      (lastRec :: restRev).reverse :: chainSweep near y [] ys

/-- `sorted(molecular_barcodes, key=lambda x: (x[0]))`: stable sort by
barcode only (insertion sort is stable, like Python's sort). -/
def sortMolecularBarcodes (l : List (MolB ρ)) : List (MolB ρ)  :=
  List.insertionSort (fun a b => a.1 ≤ b.1) l

/-- The clusters built by `countMolecularBarcodesClustersNaive` before
representative selection: records sorted by barcode, then the chained sweep
comparing each record's barcode with the last barcode added to the current
cluster. -/
def naiveClusters (allowed_mismatches : ℕ) (molecular_barcodes : List (MolB ρ)) :
    List (List (MolB ρ)) :=
  match sortMolecularBarcodes molecular_barcodes with
  | [] => []
  | x :: xs =>
    chainSweep (fun a b => decide (hamming_distance a.1 b.1 ≤ allowed_mismatches)) x [] xs

/-- `countMolecularBarcodesClustersNaive(molecular_barcodes, allowed_mismatches,
min_cluster_size)`; `choice` models `random.choice` over a cluster's members. -/
def countMolecularBarcodesClustersNaive (choice : List (MolB ρ) → MolB ρ)
    (molecular_barcodes : List (MolB ρ)) (allowed_mismatches min_cluster_size : ℕ) :
    List ρ :=
  resolveClusters choice min_cluster_size (naiveClusters allowed_mismatches molecular_barcodes)

/-- Modelled from the spec: the metric used by the `counttrie` search
(`counttrie` is an external package, not under `src/`): plain Hamming lookup
when `allow_indels` is false, indel-tolerant edit distance when true. -/
def trieDist (allow_indels : Bool) : List Char → List Char → ℕ :=
  if allow_indels then levenshtein_distance else hamming_distance

/-- Modelled from the spec: `CountTrie.find_equal_length_optimized(q, mm,
allow_indels)` returns the set of currently indexed keys of the query's
length within the allowed distance of the query (including the query itself
when still indexed, since its distance is 0). -/
def find_equal_length_optimized (d : List Char → List Char → ℕ)
    (keys : List (List Char)) (q : List Char) (mm : ℕ) : List (List Char) :=
  keys.filter (fun k => decide (k.length = q.length ∧ d q k ≤ mm))

/-- All records whose barcode lies in the neighborhood, in neighborhood order:
the concatenation of `reads[clustered_mc]` over `clustered_mc in cluster`
(each `reads[mc]` holds, in input order, the reads inserted for barcode
`mc`). -/
def trieGatherRecords (full : List (MolB ρ)) (nbhd : List (List Char)) : List (MolB ρ) :=
  nbhd.flatMap (fun k => full.filter (fun x => decide (x.1 = k)))

/-- `size_cluster`: the sum over the neighborhood of `trie.get_count`, the
number of inserts of that exact barcode (never removed before this step). -/
def trieSizeCluster (full : List (MolB ρ)) (nbhd : List (List Char)) : ℕ :=
  (nbhd.map (fun k => (full.map (·.1)).count k)).sum

/-- One iteration of the trie clusterer's processing loop, recorded for
analysis: the trie's key set before the step, the neighborhood (`cluster`),
its summed size, the gathered records (`original_reads` are their second
components) and the reads emitted for this iteration. -/
structure TrieStepInfo (ρ : Type u) where
  keysBefore : List (List Char)
  cluster : List (List Char)
  size_cluster : ℕ
  original_records : List (MolB ρ)
  emitted : List ρ
deriving DecidableEq

/-- The processing loop of `countMolecularBarcodesPrefixtrie`, iterating the
records in their original order: query the trie for the neighborhood of the
record's barcode, sum the occurrence counts, gather the mapped reads, delete
the neighborhood from the trie and the read map, and emit one chosen read
(cluster at least `min_cluster_size` and nonempty) or all gathered reads. -/
def trieTrace (d : List Char → List Char → ℕ) (allowed_mismatches min_cluster_size : ℕ)
    (choiceR : List ρ → ρ) (full : List (MolB ρ)) :
    List (List Char) → List (MolB ρ) → List (TrieStepInfo ρ)
  | _, [] => []
  | keys, r :: rs =>
    let cluster := find_equal_length_optimized d keys r.1 allowed_mismatches
    let recs := trieGatherRecords full cluster
    let original_reads := recs.map (·.2)
    let sz := trieSizeCluster full cluster
    let emitted :=
      if min_cluster_size ≤ sz ∧ original_reads.isEmpty = false then [choiceR original_reads]
      else original_reads
    ⟨keys, cluster, sz, recs, emitted⟩ ::
      trieTrace d allowed_mismatches min_cluster_size choiceR full
        (keys.filter (fun k => decide (k ∉ cluster))) rs

/-- The trie's initial key set: one key per distinct barcode (repeated inserts
only increment the count). -/
def trieInitialKeys (l : List (MolB ρ)) : List (List Char) := (l.map (·.1)).dedup

/-- `countMolecularBarcodesPrefixtrie(molecular_barcodes, allowed_mismatches,
min_cluster_size, allow_indels)`; `choiceR` models `random.choice` over the
gathered reads. -/
def countMolecularBarcodesPrefixtrie (choiceR : List ρ → ρ)
    (molecular_barcodes : List (MolB ρ)) (allowed_mismatches min_cluster_size : ℕ)
    (allow_indels : Bool) : List ρ :=
  (trieTrace (trieDist allow_indels) allowed_mismatches min_cluster_size choiceR
      molecular_barcodes (trieInitialKeys molecular_barcodes) molecular_barcodes).flatMap
    (·.emitted)

/-- The trie clusterer's partition of the records: the nonempty gathered
groups, one per consumed neighborhood. -/
def triePartition (d : List Char → List Char → ℕ)
    (allowed_mismatches min_cluster_size : ℕ) (choiceR : List ρ → ρ)
    (molecular_barcodes : List (MolB ρ)) : List (List (MolB ρ)) :=
  ((trieTrace d allowed_mismatches min_cluster_size choiceR molecular_barcodes
      (trieInitialKeys molecular_barcodes) molecular_barcodes).map
    (·.original_records)).filter (fun c => !c.isEmpty)

/-- Modelled from the spec: one insertion step of single-linkage connected
components.  `scipy`'s `linkage`/`fcluster` are external; the spec says the
dendrogram is cut at distance `allowed_mismatches`, and for the default
`single` linkage the flat clusters are exactly the connected components of
the graph joining records at Hamming distance at most the threshold. -/
def addToComponents (allowed_mismatches : ℕ) (x : MolB ρ)
    (comps : List (List (MolB ρ))) : List (List (MolB ρ)) :=
  (x :: (comps.filter (fun c =>
      c.any (fun y => decide (hamming_distance x.1 y.1 ≤ allowed_mismatches)))).flatten) ::
    comps.filter (fun c =>
      !(c.any (fun y => decide (hamming_distance x.1 y.1 ≤ allowed_mismatches))))

/-- Modelled from the spec: single-linkage flat clusters at the distance
threshold, computed as connected components by inserting records one at a
time. -/
def singleLinkageComponents (allowed_mismatches : ℕ) (l : List (MolB ρ)) :
    List (List (MolB ρ)) :=
  l.foldl (fun comps x => addToComponents allowed_mismatches x comps) []

set_option linter.unusedVariables false in
/-- `countMolecularBarcodesClustersHierarchical(molecular_barcodes,
allowed_mismatches, min_cluster_size, method)`.  The `<= 2` branch is the
code's fallback to the naive clusterer.  The larger branch is modelled from
the spec for the default `method = "single"` (the `method` argument is kept
in the signature but the model implements single linkage). -/
def countMolecularBarcodesClustersHierarchical (choice : List (MolB ρ) → MolB ρ)
    (molecular_barcodes : List (MolB ρ)) (allowed_mismatches min_cluster_size : ℕ)
    (method : String) : List ρ :=
  if molecular_barcodes.length ≤ 2 then
    countMolecularBarcodesClustersNaive choice molecular_barcodes allowed_mismatches
      min_cluster_size
  else
    resolveClusters choice min_cluster_size
      (singleLinkageComponents allowed_mismatches molecular_barcodes)

/-- The hierarchical clusterer's partition: the naive sweep for at most two
records, single-linkage components otherwise. -/
def hierPartition (allowed_mismatches : ℕ) (l : List (MolB ρ)) :
    List (List (MolB ρ)) :=
  if l.length ≤ 2 then naiveClusters allowed_mismatches l
  else singleLinkageComponents allowed_mismatches l

/-! ## Analysis of the chained sweep

`chainSplit` recomputes the naive sweep's clustering by a head recursion:
a list is split exactly at the positions where two consecutive elements are
not `near`.  The bridge lemma `naiveClusters_eq_chainSplit` identifies it
with the accumulator loop embedded from the code. -/

/-- One step of the head recursion: either the element joins the cluster of
the following element or it opens a new cluster. -/
def chainStep (near : α → α → Bool) (x : α) (acc : List (List α)) : List (List α) :=
  match acc with
  | (y :: c) :: cs => if near x y then (x :: y :: c) :: cs else [x] :: (y :: c) :: cs
  | _ => [[x]]

/-- Split a list at every adjacent pair that is not `near`. -/
def chainSplit (near : α → α → Bool) (l : List α) : List (List α) :=
  l.foldr (chainStep near) []

theorem chainSplit_nil (near : α → α → Bool) : chainSplit near ([] : List α) = [] := rfl

theorem chainSplit_singleton (near : α → α → Bool) (x : α) :
    chainSplit near [x] = [[x]] := rfl

theorem chainSplit_cons (near : α → α → Bool) (x : α) (xs : List α) :
    chainSplit near (x :: xs) = chainStep near x (chainSplit near xs) := rfl

/-- The first cluster of a split of a nonempty list starts with its head. -/
theorem chainSplit_head_structure (near : α → α → Bool) (x : α) (xs : List α) :
    ∃ c cs, chainSplit near (x :: xs) = (x :: c) :: cs := by
  induction xs generalizing x with
  | nil => exact ⟨[], [], rfl⟩
  | cons y ys ih =>
    obtain ⟨c, cs, hy⟩ := ih y
    by_cases h : near x y = true
    · exact ⟨y :: c, cs, by rw [chainSplit_cons, hy]; simp [chainStep, h]⟩
    · exact ⟨[], (y :: c) :: cs, by rw [chainSplit_cons, hy]; simp [chainStep, h]⟩

theorem chainSplit_cons_near {near : α → α → Bool} {y : α} {ys : List α}
    {c : List α} {cs : List (List α)} (hy : chainSplit near (y :: ys) = (y :: c) :: cs)
    {x : α} (h : near x y = true) :
    chainSplit near (x :: y :: ys) = (x :: y :: c) :: cs := by
  rw [chainSplit_cons, hy]
  simp [chainStep, h]

theorem chainSplit_cons_far {near : α → α → Bool} {y : α} {ys : List α}
    {c : List α} {cs : List (List α)} (hy : chainSplit near (y :: ys) = (y :: c) :: cs)
    {x : α} (h : near x y = false) :
    chainSplit near (x :: y :: ys) = [x] :: (y :: c) :: cs := by
  rw [chainSplit_cons, hy]
  simp [chainStep, h]

/-- The clusters of the chained split concatenate back to the input list. -/
theorem chainSplit_flatten (near : α → α → Bool) (l : List α) :
    (chainSplit near l).flatten = l := by
  induction l with
  | nil => rfl
  | cons x xs ih =>
    cases xs with
    | nil => simp [chainSplit_singleton]
    | cons y ys =>
      obtain ⟨c, cs, hy⟩ := chainSplit_head_structure near y ys
      by_cases h : near x y = true
      · rw [chainSplit_cons_near hy h]
        rw [hy] at ih
        simpa using ih
      · rw [chainSplit_cons_far hy (by simpa using h)]
        rw [hy] at ih
        simpa using ih

/-- No cluster of the chained split is empty. -/
theorem chainSplit_ne_nil (near : α → α → Bool) (l : List α) :
    ∀ c ∈ chainSplit near l, c ≠ [] := by
  induction l with
  | nil => simp [chainSplit_nil]
  | cons x xs ih =>
    cases xs with
    | nil => simp [chainSplit_singleton]
    | cons y ys =>
      obtain ⟨c, cs, hy⟩ := chainSplit_head_structure near y ys
      rw [hy] at ih
      by_cases h : near x y = true
      · rw [chainSplit_cons_near hy h]
        intro d hd
        rcases List.mem_cons.mp hd with hd | hd
        · simp [hd]
        · exact ih d (List.mem_cons_of_mem _ hd)
      · rw [chainSplit_cons_far hy (by simpa using h)]
        intro d hd
        rcases List.mem_cons.mp hd with hd | hd
        · simp [hd]
        · exact ih d hd

/-- Inside every cluster, consecutive members are `near`: each record was
admitted by comparison with the last record added before it. -/
theorem chainSplit_chain (near : α → α → Bool) (l : List α) :
    ∀ c ∈ chainSplit near l, List.Chain' (fun a b => near a b = true) c := by
  induction l with
  | nil => simp [chainSplit_nil]
  | cons x xs ih =>
    cases xs with
    | nil => simp [chainSplit_singleton]
    | cons y ys =>
      obtain ⟨c, cs, hy⟩ := chainSplit_head_structure near y ys
      rw [hy] at ih
      by_cases h : near x y = true
      · rw [chainSplit_cons_near hy h]
        intro d hd
        rcases List.mem_cons.mp hd with hd | hd
        · subst hd
          exact (ih (y :: c) (by simp)).cons h
        · exact ih d (List.mem_cons_of_mem _ hd)
      · rw [chainSplit_cons_far hy (by simpa using h)]
        intro d hd
        rcases List.mem_cons.mp hd with hd | hd
        · subst hd
          simp
        · exact ih d hd

/-- Across a cluster boundary the adjacent records are not `near`: the sweep
sealed the cluster because the distance exceeded the threshold. -/
theorem chainSplit_boundary (near : α → α → Bool) (l : List α) :
    List.Chain' (fun c₁ c₂ => ∀ a ∈ c₁.getLast?, ∀ b ∈ c₂.head?, near a b = false)
      (chainSplit near l) := by
  induction l with
  | nil => simp [chainSplit_nil]
  | cons x xs ih =>
    cases xs with
    | nil => simp [chainSplit_singleton]
    | cons y ys =>
      obtain ⟨c, cs, hy⟩ := chainSplit_head_structure near y ys
      rw [hy] at ih
      by_cases h : near x y = true
      · rw [chainSplit_cons_near hy h]
        rw [List.chain'_cons'] at ih ⊢
        refine ⟨?_, ih.2⟩
        intro d hd a ha
        exact ih.1 d hd a (by simpa using ha)
      · rw [chainSplit_cons_far hy (by simpa using h)]
        rw [List.chain'_cons']
        refine ⟨?_, ih⟩
        intro d hd a ha b hb
        simp at hd ha hb
        subst hd; subst ha
        simp at hb
        subst hb
        simpa using h

/-- The accumulator sweep agrees with the head recursion on any nonempty
remaining input: the current cluster is glued onto the split of the rest. -/
theorem chainSweep_cons_eq (near : α → α → Bool) :
    ∀ (ys : List α) (y lastRec : α) (restRev c : List α) (cs : List (List α)),
      chainSplit near (y :: ys) = (y :: c) :: cs →
      chainSweep near lastRec restRev (y :: ys) =
        if near lastRec y then ((lastRec :: restRev).reverse ++ (y :: c)) :: cs
        else (lastRec :: restRev).reverse :: (y :: c) :: cs := by
  intro ys
  induction ys with
  | nil =>
    intro y lastRec restRev c cs hy
    rw [chainSplit_singleton] at hy
    obtain ⟨hc, hcs⟩ := List.cons.inj hy
    obtain ⟨-, hc'⟩ := List.cons.inj hc
    subst hcs
    have hc'' : c = [] := hc'.symm
    subst hc''
    by_cases h : near lastRec y = true
    · simp [chainSweep, h]
    · simp [chainSweep, h]
  | cons z zs ih =>
    intro y lastRec restRev c cs hy
    obtain ⟨c', cs', hz⟩ := chainSplit_head_structure near z zs
    by_cases hyz : near y z = true
    · rw [chainSplit_cons_near hz hyz] at hy
      obtain ⟨hc, hcs⟩ := List.cons.inj hy
      obtain ⟨-, hc'⟩ := List.cons.inj hc
      subst hcs
      have hc'' : c = z :: c' := hc'.symm
      subst hc''
      by_cases h : near lastRec y = true
      · show chainSweep near lastRec restRev (y :: z :: zs) = _
        rw [chainSweep, if_pos h]
        rw [ih z y (lastRec :: restRev) c' cs' hz]
        simp [hyz, h]
      · show chainSweep near lastRec restRev (y :: z :: zs) = _
        rw [chainSweep, if_neg (by simp [h])]
        rw [ih z y [] c' cs' hz]
        simp [hyz, h]
    · rw [chainSplit_cons_far hz (by simpa using hyz)] at hy
      obtain ⟨hc, hcs⟩ := List.cons.inj hy
      obtain ⟨-, hc'⟩ := List.cons.inj hc
      subst hcs
      have hc'' : c = [] := hc'.symm
      subst hc''
      by_cases h : near lastRec y = true
      · show chainSweep near lastRec restRev (y :: z :: zs) = _
        rw [chainSweep, if_pos h]
        rw [ih z y (lastRec :: restRev) c' cs' hz]
        simp [hyz, h]
      · show chainSweep near lastRec restRev (y :: z :: zs) = _
        rw [chainSweep, if_neg (by simp [h])]
        rw [ih z y [] c' cs' hz]
        simp [hyz, h]

/-- The clusters computed by the naive sweep are the chained split of the
sorted record list. -/
theorem naiveClusters_eq_chainSplit (allowed_mismatches : ℕ)
    (molecular_barcodes : List (MolB ρ)) :
    naiveClusters allowed_mismatches molecular_barcodes =
      chainSplit (fun a b => decide (hamming_distance a.1 b.1 ≤ allowed_mismatches))
        (sortMolecularBarcodes molecular_barcodes) := by
  rw [naiveClusters]
  cases hs : sortMolecularBarcodes molecular_barcodes with
  | nil => rfl
  | cons x xs =>
    cases xs with
    | nil => simp [chainSweep, chainSplit_singleton]
    | cons y ys =>
      set near := fun (a b : MolB ρ) => decide (hamming_distance a.1 b.1 ≤ allowed_mismatches)
        with hnear
      obtain ⟨c, cs, hy⟩ := chainSplit_head_structure near y ys
      show chainSweep near x [] (y :: ys) = chainSplit near (x :: y :: ys)
      rw [chainSweep_cons_eq near ys y x [] c cs hy]
      by_cases h : near x y = true
      · rw [if_pos h, chainSplit_cons_near hy h]
        simp
      · rw [if_neg (by simp [h]), chainSplit_cons_far hy (by simpa using h)]
        simp

/-! ## Generic helpers -/

/-- A concrete stand-in for `random.choice` used by witnesses: picks the
first member (a legitimate value of the uniform choice). -/
def headChoice (d : α) : List α → α := fun l => l.headD d

/-- A list viewed as a multiset (order forgotten). -/
def msOf (l : List α) : Multiset α := ↑l

theorem msOf_cons (a : α) (l : List α) : msOf (a :: l) = a ::ₘ msOf l := rfl

theorem msOf_nil : msOf ([] : List α) = 0 := rfl

theorem headChoice_mem (d : α) : ∀ l : List α, l ≠ [] → headChoice d l ∈ l := by
  intro l hl
  cases l with
  | nil => exact absurd rfl hl
  | cons x xs => simp [headChoice]

theorem sortMolecularBarcodes_perm (l : List (MolB ρ)) :
    (sortMolecularBarcodes l).Perm l :=
  List.perm_insertionSort _ l

theorem sortMolecularBarcodes_sorted (l : List (MolB ρ)) :
    List.Sorted (fun a b : MolB ρ => a.1 ≤ b.1) (sortMolecularBarcodes l) := by
  haveI : IsTotal (MolB ρ) (fun a b : MolB ρ => a.1 ≤ b.1) := ⟨fun a b => le_total a.1 b.1⟩
  haveI : IsTrans (MolB ρ) (fun a b : MolB ρ => a.1 ≤ b.1) :=
    ⟨fun _ _ _ hab hbc => le_trans hab hbc⟩
  exact List.sorted_insertionSort _ l

/-! ## C3: characterization of the naive clusterer -/

/-- C3: `countMolecularBarcodesClustersNaive` sorts the records by barcode and
walks the sorted sequence with a chained linkage: the clusters concatenate
back to the sorted sequence, are nonempty, consecutive members within a
cluster are within `allowed_mismatches` of each other (each record was
compared with the last record added), adjacent clusters are separated by a
distance above the threshold, and the output emits one chosen member's read
for every cluster of size at least `min_cluster_size` and all members' reads
for every smaller cluster. -/
theorem naive_clusterer_characterization (choice : List (MolB ρ) → MolB ρ)
    (molecular_barcodes : List (MolB ρ)) (allowed_mismatches min_cluster_size : ℕ)
    (hchoice : ∀ l : List (MolB ρ), l ≠ [] → choice l ∈ l) :
    (sortMolecularBarcodes molecular_barcodes).Perm molecular_barcodes ∧
    List.Sorted (fun a b : MolB ρ => a.1 ≤ b.1) (sortMolecularBarcodes molecular_barcodes) ∧
    (naiveClusters allowed_mismatches molecular_barcodes).flatten =
      sortMolecularBarcodes molecular_barcodes ∧
    (∀ c ∈ naiveClusters allowed_mismatches molecular_barcodes, c ≠ []) ∧
    (∀ c ∈ naiveClusters allowed_mismatches molecular_barcodes,
      List.Chain' (fun a b : MolB ρ => hamming_distance a.1 b.1 ≤ allowed_mismatches) c) ∧
    List.Chain' (fun c₁ c₂ => ∀ a ∈ c₁.getLast?, ∀ b ∈ c₂.head?,
      allowed_mismatches < hamming_distance a.1 b.1)
      (naiveClusters allowed_mismatches molecular_barcodes) ∧
    (∀ c ∈ naiveClusters allowed_mismatches molecular_barcodes,
      min_cluster_size ≤ c.length → choice c ∈ c) ∧
    countMolecularBarcodesClustersNaive choice molecular_barcodes allowed_mismatches
        min_cluster_size =
      (naiveClusters allowed_mismatches molecular_barcodes).flatMap (fun members =>
        if min_cluster_size ≤ members.length then [(choice members).2]
        else members.map (·.2)) := by
  rw [naiveClusters_eq_chainSplit]
  set near := fun a b : MolB ρ => decide (hamming_distance a.1 b.1 ≤ allowed_mismatches)
    with hnear
  refine ⟨sortMolecularBarcodes_perm _, sortMolecularBarcodes_sorted _,
    chainSplit_flatten _ _, chainSplit_ne_nil _ _, ?_, ?_, ?_, ?_⟩
  · intro c hc
    exact (chainSplit_chain near _ c hc).imp (fun a b hab => of_decide_eq_true hab)
  · exact (chainSplit_boundary near _).imp (fun c₁ c₂ hR => by
      intro a ha b hb
      have := hR a ha b hb
      simp only [hnear, decide_eq_false_iff_not, not_le] at this
      exact this)
  · intro c hc _
    exact hchoice c (chainSplit_ne_nil near _ c hc)
  · rw [countMolecularBarcodesClustersNaive, resolveClusters, naiveClusters_eq_chainSplit]

/-- Witness for C3 at a concrete input. -/
theorem naive_clusterer_characterization_witness :
    (sortMolecularBarcodes [((['A','A'],1) : MolB ℕ), ((['A','C'],2)), ((['T','T'],3))]).Perm
        [((['A','A'],1) : MolB ℕ), ((['A','C'],2)), ((['T','T'],3))] ∧
    List.Sorted (fun a b : MolB ℕ => a.1 ≤ b.1)
      (sortMolecularBarcodes [((['A','A'],1) : MolB ℕ), ((['A','C'],2)), ((['T','T'],3))]) ∧
    (naiveClusters 1 [((['A','A'],1) : MolB ℕ), ((['A','C'],2)), ((['T','T'],3))]).flatten =
      sortMolecularBarcodes [((['A','A'],1) : MolB ℕ), ((['A','C'],2)), ((['T','T'],3))] ∧
    (∀ c ∈ naiveClusters 1 [((['A','A'],1) : MolB ℕ), ((['A','C'],2)), ((['T','T'],3))],
      c ≠ []) ∧
    (∀ c ∈ naiveClusters 1 [((['A','A'],1) : MolB ℕ), ((['A','C'],2)), ((['T','T'],3))],
      List.Chain' (fun a b : MolB ℕ => hamming_distance a.1 b.1 ≤ 1) c) ∧
    List.Chain' (fun c₁ c₂ => ∀ a ∈ c₁.getLast?, ∀ b ∈ c₂.head?,
      1 < hamming_distance a.1 b.1)
      (naiveClusters 1 [((['A','A'],1) : MolB ℕ), ((['A','C'],2)), ((['T','T'],3))]) ∧
    (∀ c ∈ naiveClusters 1 [((['A','A'],1) : MolB ℕ), ((['A','C'],2)), ((['T','T'],3))],
      2 ≤ c.length → headChoice ((['A','A'],1) : MolB ℕ) c ∈ c) ∧
    countMolecularBarcodesClustersNaive (headChoice ((['A','A'],1) : MolB ℕ))
        [((['A','A'],1) : MolB ℕ), ((['A','C'],2)), ((['T','T'],3))] 1 2 =
      (naiveClusters 1 [((['A','A'],1) : MolB ℕ), ((['A','C'],2)), ((['T','T'],3))]).flatMap
        (fun members =>
          if 2 ≤ members.length then [(headChoice ((['A','A'],1) : MolB ℕ) members).2]
          else members.map (·.2)) :=
  naive_clusterer_characterization (headChoice ((['A','A'],1) : MolB ℕ))
    [((['A','A'],1) : MolB ℕ), ((['A','C'],2)), ((['T','T'],3))] 1 2
    (headChoice_mem ((['A','A'],1) : MolB ℕ))

/-! ## C5: hierarchical fallback for at most two records -/

/-- C5: for at most two records the hierarchical clusterer delegates entirely
to the naive clusterer and returns exactly its result, for every threshold,
minimum cluster size and linkage method. -/
theorem hierarchical_delegates_to_naive (choice : List (MolB ρ) → MolB ρ)
    (molecular_barcodes : List (MolB ρ)) (allowed_mismatches min_cluster_size : ℕ)
    (method : String) (h : molecular_barcodes.length ≤ 2) :
    countMolecularBarcodesClustersHierarchical choice molecular_barcodes allowed_mismatches
        min_cluster_size method =
      countMolecularBarcodesClustersNaive choice molecular_barcodes allowed_mismatches
        min_cluster_size := by
  simp [countMolecularBarcodesClustersHierarchical, h]

/-- Witness for C5 at a concrete two-record input. -/
theorem hierarchical_delegates_to_naive_witness :
    countMolecularBarcodesClustersHierarchical (headChoice ((['A'],0) : MolB ℕ))
        [((['A'],0) : MolB ℕ), ((['C'],1))] 1 2 "complete" =
      countMolecularBarcodesClustersNaive (headChoice ((['A'],0) : MolB ℕ))
        [((['A'],0) : MolB ℕ), ((['C'],1))] 1 2 :=
  hierarchical_delegates_to_naive (headChoice ((['A'],0) : MolB ℕ))
    [((['A'],0) : MolB ℕ), ((['C'],1))] 1 2 "complete" (by decide)

/-! ## C6: characterization of the extractor -/

instance extRel.isTrans : IsTrans (List Char × (List Char × ρ) × ℕ × ℕ) extRel := by
  refine ⟨fun a b c hab hbc => ?_⟩
  simp only [extRel] at *
  rcases hab with h1 | ⟨e1, h1⟩
  · rcases hbc with h2 | ⟨e2, h2⟩
    · exact Or.inl (lt_trans h1 h2)
    · exact Or.inl (lt_of_lt_of_eq h1 e2)
  · rcases hbc with h2 | ⟨e2, h2⟩
    · exact Or.inl (lt_of_eq_of_lt e1 h2)
    · exact Or.inr ⟨e1.trans e2, by omega⟩

instance extRel.isTotal : IsTotal (List Char × (List Char × ρ) × ℕ × ℕ) extRel := by
  refine ⟨fun a b => ?_⟩
  simp only [extRel]
  rcases lt_trichotomy a.1 b.1 with h | h | h
  · exact Or.inl (Or.inl h)
  · by_cases hcn : b.2.2.1 < a.2.2.1 ∨ (a.2.2.1 = b.2.2.1 ∧ a.2.2.2 ≤ b.2.2.2)
    · exact Or.inl (Or.inr ⟨h, hcn⟩)
    · exact Or.inr (Or.inr ⟨h.symm, by omega⟩)
  · exact Or.inr (Or.inl h)

theorem pySlice_length (seq : List Char) (s e : ℤ) (hs : 0 ≤ s) (hse : s ≤ e)
    (hlen : e.toNat ≤ seq.length) : (pySlice seq s e).length = (e - s).toNat := by
  simp only [pySlice, List.length_take, List.length_drop]
  omega

/-- C6 (amended): for valid offsets and reads whose sequences are long enough
(length at least `end`), the extractor returns one record per input read,
each record carrying the `[start:end)` slice of its read's sequence (of
length `end - start`), the batch-wide occurrence count of that exact barcode
(at least 1) and the barcode's count of the character N (at least 0, being a
natural number), and the returned list is sorted by barcode ascending, then
occurrence count descending, then N-count ascending. -/
theorem extract_characterization (reads : List (List Char × ρ)) (s e : ℤ)
    (hs : 0 ≤ s) (hse : s < e) (hlen : ∀ read ∈ reads, e.toNat ≤ read.1.length) :
    ∃ out, extractMolecularBarcodes reads s e = some out ∧
      out.Perm (reads.map (fun read =>
        (pySlice read.1 s e, read,
         (reads.map (fun r => pySlice r.1 s e)).count (pySlice read.1 s e),
         (pySlice read.1 s e).count 'N'))) ∧
      out.length = reads.length ∧
      List.Sorted (fun a b : List Char × (List Char × ρ) × ℕ × ℕ =>
        a.1 < b.1 ∨ (a.1 = b.1 ∧ (b.2.2.1 < a.2.2.1 ∨
          (a.2.2.1 = b.2.2.1 ∧ a.2.2.2 ≤ b.2.2.2)))) out ∧
      ∀ rec ∈ out, rec.1.length = (e - s).toNat ∧
        rec.2.2.1 = (reads.map (fun r => pySlice r.1 s e)).count rec.1 ∧
        1 ≤ rec.2.2.1 ∧ rec.2.2.2 = rec.1.count 'N' := by
  have hcond : e > s ∧ s ≥ 0 := ⟨hse, hs⟩
  have hmap : (reads.map (fun read => (pySlice read.1 s e, read))).map
      (fun mc => (mc.1, mc.2,
        ((reads.map (fun read => (pySlice read.1 s e, read))).map (·.1)).count mc.1,
        mc.1.count 'N')) =
      reads.map (fun read =>
        (pySlice read.1 s e, read,
         (reads.map (fun r => pySlice r.1 s e)).count (pySlice read.1 s e),
         (pySlice read.1 s e).count 'N')) := by
    simp [List.map_map, Function.comp_def]
  have hex : extractMolecularBarcodes reads s e =
      some (List.insertionSort extRel ((reads.map (fun read => (pySlice read.1 s e, read))).map
        (fun mc => (mc.1, mc.2,
          ((reads.map (fun read => (pySlice read.1 s e, read))).map (·.1)).count mc.1,
          mc.1.count 'N')))) := by
    unfold extractMolecularBarcodes
    rw [if_pos hcond]
  refine ⟨_, hex, ?_, ?_, ?_, ?_⟩
  · rw [hmap]
    exact List.perm_insertionSort _ _
  · rw [(List.perm_insertionSort _ _).length_eq, hmap, List.length_map]
  · have h := List.sorted_insertionSort extRel
      ((reads.map (fun read => (pySlice read.1 s e, read))).map
        (fun mc => (mc.1, mc.2,
          ((reads.map (fun read => (pySlice read.1 s e, read))).map (·.1)).count mc.1,
          mc.1.count 'N')))
    exact h.imp (fun hab => by simpa [extRel] using hab)
  · intro rec hrec
    have hrec' := ((List.perm_insertionSort _ _).mem_iff).mp hrec
    rw [hmap] at hrec'
    obtain ⟨read, hread, hrw⟩ := List.mem_map.mp hrec'
    subst hrw
    refine ⟨pySlice_length read.1 s e hs (le_of_lt hse) (hlen read hread), rfl, ?_, rfl⟩
    have : pySlice read.1 s e ∈ reads.map (fun r => pySlice r.1 s e) :=
      List.mem_map.mpr ⟨read, hread, rfl⟩
    exact List.count_pos_iff.mpr this

/-- Witness for C6 at a concrete input (two reads sharing a barcode). -/
theorem extract_characterization_witness :
    ∃ out, extractMolecularBarcodes
        ([((['A','C','G'],0) : List Char × ℕ), ((['A','C','T'],1)), ((['T','C','G'],2))]) 0 2 =
        some out ∧
      out.Perm ([((['A','C','G'],0) : List Char × ℕ), ((['A','C','T'],1)),
          ((['T','C','G'],2))].map (fun read =>
        (pySlice read.1 0 2, read,
         ([((['A','C','G'],0) : List Char × ℕ), ((['A','C','T'],1)),
            ((['T','C','G'],2))].map (fun r => pySlice r.1 0 2)).count (pySlice read.1 0 2),
         (pySlice read.1 0 2).count 'N'))) ∧
      out.length = [((['A','C','G'],0) : List Char × ℕ), ((['A','C','T'],1)),
          ((['T','C','G'],2))].length ∧
      List.Sorted (fun a b : List Char × (List Char × ℕ) × ℕ × ℕ =>
        a.1 < b.1 ∨ (a.1 = b.1 ∧ (b.2.2.1 < a.2.2.1 ∨
          (a.2.2.1 = b.2.2.1 ∧ a.2.2.2 ≤ b.2.2.2)))) out ∧
      ∀ rec ∈ out, rec.1.length = ((2 : ℤ) - 0).toNat ∧
        rec.2.2.1 = ([((['A','C','G'],0) : List Char × ℕ), ((['A','C','T'],1)),
          ((['T','C','G'],2))].map (fun r => pySlice r.1 0 2)).count rec.1 ∧
        1 ≤ rec.2.2.1 ∧ rec.2.2.2 = rec.1.count 'N' :=
  extract_characterization
    [((['A','C','G'],0) : List Char × ℕ), ((['A','C','T'],1)), ((['T','C','G'],2))] 0 2
    (by decide) (by decide) (by decide)

/-- Counterexample to C6 as stated: a read shorter than `end` yields a
truncated barcode whose length is less than `end - start`. -/
theorem extract_barcode_length_counterexample :
    extractMolecularBarcodes ([((['A','B'],0) : List Char × ℕ)]) 0 5 =
      some [(['A','B'], (['A','B'],0), 1, 0)] ∧
    ¬ ((['A','B'] : List Char).length = ((5 : ℤ) - 0).toNat) := by
  constructor
  · decide
  · decide

/-! ## C7: monotonicity in the mismatch threshold -/

/-- Weakening the nearness test only merges clusters of the chained split:
every cluster is contained in a cluster of the weaker split, and the leading
clusters contain each other head-on. -/
theorem chainSplit_mono (near₁ near₂ : α → α → Bool)
    (himp : ∀ a b, near₁ a b = true → near₂ a b = true) (l : List α) :
    (∀ c ∈ chainSplit near₁ l, ∃ c' ∈ chainSplit near₂ l, c ⊆ c') ∧
    (∀ x (c₁ : List α) cs₁ c₂ cs₂, chainSplit near₁ l = (x :: c₁) :: cs₁ →
      chainSplit near₂ l = (x :: c₂) :: cs₂ → x :: c₁ ⊆ x :: c₂) := by
  induction l with
  | nil => exact ⟨by simp [chainSplit_nil], by simp [chainSplit_nil]⟩
  | cons x xs ih =>
    cases xs with
    | nil =>
      refine ⟨?_, ?_⟩
      · intro c hc
        rw [chainSplit_singleton] at hc ⊢
        exact ⟨c, hc, fun a ha => ha⟩
      · intro z c₁ cs₁ c₂ cs₂ h1 h2
        rw [chainSplit_singleton] at h1 h2
        obtain ⟨hz1, -⟩ := List.cons.inj h1
        obtain ⟨hz2, -⟩ := List.cons.inj h2
        obtain ⟨hxz, hc1⟩ := List.cons.inj hz1
        obtain ⟨-, hc2⟩ := List.cons.inj hz2
        rw [← hc1, ← hc2]
        exact fun a ha => ha
    | cons y ys =>
      obtain ⟨c₁, cs₁, hy₁⟩ := chainSplit_head_structure near₁ y ys
      obtain ⟨c₂, cs₂, hy₂⟩ := chainSplit_head_structure near₂ y ys
      have hhead : y :: c₁ ⊆ y :: c₂ := ih.2 y c₁ cs₁ c₂ cs₂ hy₁ hy₂
      by_cases h2 : near₂ x y = true
      · have hs₂ : chainSplit near₂ (x :: y :: ys) = (x :: y :: c₂) :: cs₂ :=
          chainSplit_cons_near hy₂ h2
        by_cases h1 : near₁ x y = true
        · have hs₁ : chainSplit near₁ (x :: y :: ys) = (x :: y :: c₁) :: cs₁ :=
            chainSplit_cons_near hy₁ h1
          refine ⟨?_, ?_⟩
          · intro c hc
            rw [hs₁] at hc
            rw [hs₂]
            rcases List.mem_cons.mp hc with hc | hc
            · exact ⟨x :: y :: c₂, by simp, by
                subst hc
                exact List.cons_subset_cons x hhead⟩
            · obtain ⟨c', hc', hsub⟩ := ih.1 c (by
                rw [hy₁]
                exact List.mem_cons_of_mem _ hc)
              rw [hy₂] at hc'
              rcases List.mem_cons.mp hc' with hc' | hc'
              · exact ⟨x :: y :: c₂, by simp, by
                  subst hc'
                  exact hsub.trans (List.subset_cons_self _ _)⟩
              · exact ⟨c', by simp [hc'], hsub⟩
          · intro z d₁ ds₁ d₂ ds₂ hd1 hd2
            rw [hs₁] at hd1
            rw [hs₂] at hd2
            obtain ⟨hz1, -⟩ := List.cons.inj hd1
            obtain ⟨hz2, -⟩ := List.cons.inj hd2
            obtain ⟨hxz, hc1⟩ := List.cons.inj hz1
            obtain ⟨-, hc2⟩ := List.cons.inj hz2
            rw [← hc1, ← hc2, ← hxz]
            exact List.cons_subset_cons x hhead
        · have hs₁ : chainSplit near₁ (x :: y :: ys) = [x] :: (y :: c₁) :: cs₁ :=
            chainSplit_cons_far hy₁ (by simpa using h1)
          refine ⟨?_, ?_⟩
          · intro c hc
            rw [hs₁] at hc
            rw [hs₂]
            rcases List.mem_cons.mp hc with hc | hc
            · exact ⟨x :: y :: c₂, by simp, by
                subst hc
                intro a ha
                simp at ha
                simp [ha]⟩
            · rcases List.mem_cons.mp hc with hc | hc
              · exact ⟨x :: y :: c₂, by simp, by
                  subst hc
                  exact hhead.trans (List.subset_cons_self _ _)⟩
              · obtain ⟨c', hc', hsub⟩ := ih.1 c (by
                  rw [hy₁]
                  exact List.mem_cons_of_mem _ hc)
                rw [hy₂] at hc'
                rcases List.mem_cons.mp hc' with hc' | hc'
                · exact ⟨x :: y :: c₂, by simp, by
                    subst hc'
                    exact hsub.trans (List.subset_cons_self _ _)⟩
                · exact ⟨c', by simp [hc'], hsub⟩
          · intro z d₁ ds₁ d₂ ds₂ hd1 hd2
            rw [hs₁] at hd1
            rw [hs₂] at hd2
            obtain ⟨hz1, -⟩ := List.cons.inj hd1
            obtain ⟨hz2, -⟩ := List.cons.inj hd2
            obtain ⟨hxz, hc1⟩ := List.cons.inj hz1
            obtain ⟨-, hc2⟩ := List.cons.inj hz2
            rw [← hc1, ← hc2]
            intro a ha
            simp at ha
            simp [ha]
      · have h1 : near₁ x y = false := by
          cases hxy : near₁ x y with
          | false => rfl
          | true => exact absurd (himp x y hxy) h2
        have hs₁ : chainSplit near₁ (x :: y :: ys) = [x] :: (y :: c₁) :: cs₁ :=
          chainSplit_cons_far hy₁ h1
        have hs₂ : chainSplit near₂ (x :: y :: ys) = [x] :: (y :: c₂) :: cs₂ :=
          chainSplit_cons_far hy₂ (by simpa using h2)
        refine ⟨?_, ?_⟩
        · intro c hc
          rw [hs₁] at hc
          rw [hs₂]
          rcases List.mem_cons.mp hc with hc | hc
          · exact ⟨[x], by simp, by simp [hc]⟩
          · obtain ⟨c', hc', hsub⟩ := ih.1 c (by rw [hy₁]; exact hc)
            rw [hy₂] at hc'
            exact ⟨c', by simp [List.mem_cons.mp hc'], hsub⟩
        · intro z d₁ ds₁ d₂ ds₂ hd1 hd2
          rw [hs₁] at hd1
          rw [hs₂] at hd2
          obtain ⟨hz1, -⟩ := List.cons.inj hd1
          obtain ⟨hz2, -⟩ := List.cons.inj hd2
          obtain ⟨hxz, hc1⟩ := List.cons.inj hz1
          obtain ⟨-, hc2⟩ := List.cons.inj hz2
          rw [← hc1, ← hc2]
          exact fun a ha => ha

/-- The naive sweep's clusters only merge as the threshold grows. -/
theorem naiveClusters_mono (t₁ t₂ : ℕ) (ht : t₁ ≤ t₂) (l : List (MolB ρ)) :
    ∀ c ∈ naiveClusters t₁ l, ∃ c' ∈ naiveClusters t₂ l, c ⊆ c' := by
  rw [naiveClusters_eq_chainSplit, naiveClusters_eq_chainSplit]
  exact (chainSplit_mono _ _ (fun a b hab => by
    simp only [decide_eq_true_eq] at hab ⊢
    omega) _).1

/-- One insertion step preserves refinement between component lists at two
thresholds: every component at the smaller threshold stays contained in some
component at the larger one. -/
theorem addToComponents_refines (t₁ t₂ : ℕ) (ht : t₁ ≤ t₂) (x : MolB ρ)
    (comps₁ comps₂ : List (List (MolB ρ)))
    (hinv : ∀ c ∈ comps₁, ∃ c' ∈ comps₂, c ⊆ c') :
    ∀ c ∈ addToComponents t₁ x comps₁,
      ∃ c' ∈ addToComponents t₂ x comps₂, c ⊆ c' := by
  intro c hc
  rw [addToComponents] at hc
  rcases List.mem_cons.mp hc with hc | hc
  · refine ⟨x :: (comps₂.filter (fun c =>
        c.any (fun y => decide (hamming_distance x.1 y.1 ≤ t₂)))).flatten, ?_, ?_⟩
    · rw [addToComponents]
      exact List.mem_cons_self _ _
    · subst hc
      intro a ha
      rcases List.mem_cons.mp ha with ha | ha
      · exact ha ▸ List.mem_cons_self _ _
      · obtain ⟨c₁, hc₁, hac₁⟩ := List.mem_flatten.mp ha
        have hmf := List.mem_filter.mp hc₁
        obtain ⟨c₂, hc₂, hsub⟩ := hinv c₁ hmf.1
        obtain ⟨y, hy, hyd⟩ := List.any_eq_true.mp hmf.2
        have hyd₂ : (decide (hamming_distance x.1 y.1 ≤ t₂) : Bool) = true := by
          rw [decide_eq_true_eq] at hyd ⊢
          omega
        have hn₂ : c₂.any (fun y => decide (hamming_distance x.1 y.1 ≤ t₂)) = true :=
          List.any_eq_true.mpr ⟨y, hsub hy, hyd₂⟩
        exact List.mem_cons_of_mem _ (List.mem_flatten.mpr
          ⟨c₂, List.mem_filter.mpr ⟨hc₂, hn₂⟩, hsub hac₁⟩)
  · have hmf := List.mem_filter.mp hc
    obtain ⟨c₂, hc₂, hsub⟩ := hinv c hmf.1
    by_cases hn : c₂.any (fun y => decide (hamming_distance x.1 y.1 ≤ t₂)) = true
    · refine ⟨x :: (comps₂.filter (fun c =>
          c.any (fun y => decide (hamming_distance x.1 y.1 ≤ t₂)))).flatten, ?_, ?_⟩
      · rw [addToComponents]
        exact List.mem_cons_self _ _
      · intro a ha
        exact List.mem_cons_of_mem _ (List.mem_flatten.mpr
          ⟨c₂, List.mem_filter.mpr ⟨hc₂, hn⟩, hsub ha⟩)
    · refine ⟨c₂, ?_, hsub⟩
      rw [addToComponents]
      refine List.mem_cons_of_mem _ (List.mem_filter.mpr ⟨hc₂, ?_⟩)
      rw [Bool.not_eq_true']
      exact Bool.eq_false_iff.mpr hn

/-- The insertion fold preserves the threshold-refinement invariant. -/
theorem foldl_addToComponents_mono (t₁ t₂ : ℕ) (ht : t₁ ≤ t₂)
    (todo : List (MolB ρ)) :
    ∀ (comps₁ comps₂ : List (List (MolB ρ))),
    (∀ c ∈ comps₁, ∃ c' ∈ comps₂, c ⊆ c') →
    ∀ c ∈ todo.foldl (fun comps x => addToComponents t₁ x comps) comps₁,
      ∃ c' ∈ todo.foldl (fun comps x => addToComponents t₂ x comps) comps₂,
        c ⊆ c' := by
  induction todo with
  | nil => exact fun comps₁ comps₂ hinv => hinv
  | cons x xs ih =>
    intro comps₁ comps₂ hinv
    simp only [List.foldl_cons]
    exact ih _ _ (addToComponents_refines t₁ t₂ ht x comps₁ comps₂ hinv)

/-- The modelled single-linkage components are nested in the threshold. -/
theorem singleLinkageComponents_mono (t₁ t₂ : ℕ) (ht : t₁ ≤ t₂)
    (l : List (MolB ρ)) :
    ∀ c ∈ singleLinkageComponents t₁ l,
      ∃ c' ∈ singleLinkageComponents t₂ l, c ⊆ c' :=
  foldl_addToComponents_mono t₁ t₂ ht l [] []
    (fun c hc => absurd hc (List.not_mem_nil c))

/-- The hierarchical clusterer's partition only merges as the threshold
grows: the naive fallback and the single-linkage branch are both monotone. -/
theorem hierPartition_mono (t₁ t₂ : ℕ) (ht : t₁ ≤ t₂) (l : List (MolB ρ)) :
    ∀ c ∈ hierPartition t₁ l, ∃ c' ∈ hierPartition t₂ l, c ⊆ c' := by
  rw [hierPartition, hierPartition]
  by_cases h : l.length ≤ 2
  · rw [if_pos h, if_pos h]
    exact naiveClusters_mono t₁ t₂ ht l
  · rw [if_neg h, if_neg h]
    exact singleLinkageComponents_mono t₁ t₂ ht l

/-- C7 (amended): for the naive and the hierarchical clusterers, raising
`allowed_mismatches` only merges clusters: every cluster produced at
threshold `t₁ ≤ t₂` is contained in some cluster produced at threshold `t₂`
(so no cluster size decreases).  The trie strategy violates the original
claim (`trie_mismatch_not_monotone_counterexample`): its destructive, order-
dependent consumption can split a cluster when the threshold grows. -/
theorem naive_hier_mismatch_monotone (molecular_barcodes : List (MolB ρ))
    (t₁ t₂ : ℕ) (h : t₁ ≤ t₂) :
    (∀ c ∈ naiveClusters t₁ molecular_barcodes,
      ∃ c' ∈ naiveClusters t₂ molecular_barcodes, c ⊆ c') ∧
    (∀ c ∈ hierPartition t₁ molecular_barcodes,
      ∃ c' ∈ hierPartition t₂ molecular_barcodes, c ⊆ c') :=
  ⟨naiveClusters_mono t₁ t₂ h molecular_barcodes,
   hierPartition_mono t₁ t₂ h molecular_barcodes⟩

/-- Witness for C7 at a concrete input: the naive singleton cluster of AAA
at threshold 1 lands inside a naive cluster at threshold 2, and the
hierarchical cluster of TTT and ATT at threshold 1 lands inside a
hierarchical cluster at threshold 2. -/
theorem naive_hier_mismatch_monotone_witness :
    (∃ c' ∈ naiveClusters 2 [((['A','A','A'],1) : MolB ℕ), ((['A','T','T'],2)),
        ((['T','T','T'],3))],
      ([((['A','A','A'],1) : MolB ℕ)] : List (MolB ℕ)) ⊆ c') ∧
    (∃ c' ∈ hierPartition 2 [((['A','A','A'],1) : MolB ℕ), ((['A','T','T'],2)),
        ((['T','T','T'],3))],
      ([((['T','T','T'],3) : MolB ℕ), ((['A','T','T'],2))] : List (MolB ℕ)) ⊆ c') :=
  ⟨(naive_hier_mismatch_monotone
      [((['A','A','A'],1) : MolB ℕ), ((['A','T','T'],2)), ((['T','T','T'],3))] 1 2
      (by decide)).1 [((['A','A','A'],1) : MolB ℕ)] (by decide),
   (naive_hier_mismatch_monotone
      [((['A','A','A'],1) : MolB ℕ), ((['A','T','T'],2)), ((['T','T','T'],3))] 1 2
      (by decide)).2 [((['T','T','T'],3) : MolB ℕ), ((['A','T','T'],2))] (by decide)⟩

/-- Counterexample to C7 as stated: for the trie strategy with input
AAA, ATT, TTT, the cluster gathering ATT and TTT at threshold 1 is contained
in no cluster at threshold 2 (at threshold 2 the first query consumes AAA
and ATT, stranding TTT in its own cluster). -/
theorem trie_mismatch_not_monotone_counterexample :
    [((['A','T','T'],2) : MolB ℕ), ((['T','T','T'],3))] ∈
      triePartition hamming_distance 1 2 (headChoice 0)
        [((['A','A','A'],1) : MolB ℕ), ((['A','T','T'],2)), ((['T','T','T'],3))] ∧
    ¬ ∃ c' ∈ triePartition hamming_distance 2 2 (headChoice 0)
        [((['A','A','A'],1) : MolB ℕ), ((['A','T','T'],2)), ((['T','T','T'],3))],
      ([((['A','T','T'],2) : MolB ℕ), ((['T','T','T'],3))] : List (MolB ℕ)) ⊆ c' := by
  constructor
  · decide
  · decide

/-! ## C8: extraction offset validation -/

/-- C8: `extractMolecularBarcodes` fails exactly when the offsets violate
`end > start ≥ 0`; validation precedes all work, so an invalid call produces
no partial result, and for valid offsets a result is always produced. -/
theorem extract_fails_iff_invalid_range (reads : List (List Char × ρ)) (s e : ℤ) :
    (extractMolecularBarcodes reads s e = none ↔ ¬(e > s ∧ s ≥ 0)) ∧
    ((extractMolecularBarcodes reads s e).isSome ↔ (e > s ∧ s ≥ 0)) := by
  by_cases h : e > s ∧ s ≥ 0
  · constructor
    · simp [extractMolecularBarcodes, h]
    · simp [extractMolecularBarcodes, h]
  · constructor
    · simp [extractMolecularBarcodes, h]
    · simp [extractMolecularBarcodes, h]

/-! ## Analysis of the trie clusterer's destructive consumption -/

theorem filter_barcode_length_count (full : List (MolB ρ)) (k : List Char) :
    (full.filter (fun x => decide (x.1 = k))).length = (full.map (·.1)).count k := by
  induction full with
  | nil => simp
  | cons a l ih =>
    by_cases h : a.1 = k
    · simp [List.filter_cons, h, List.count_cons, ih]
    · simp [List.filter_cons, h, List.count_cons, ih]

/-- The reads gathered for a duplicate-free neighborhood are exactly the
records whose barcode lies in the neighborhood. -/
theorem trieGatherRecords_coe (full : List (MolB ρ)) (nbhd : List (List Char))
    (h : nbhd.Nodup) :
    (↑(trieGatherRecords full nbhd) : Multiset (MolB ρ)) =
      Multiset.filter (fun x => x.1 ∈ nbhd) ↑full := by
  induction nbhd with
  | nil => simp [trieGatherRecords]
  | cons k ks ih =>
    rw [List.nodup_cons] at h
    have hks := ih h.2
    have hstep : trieGatherRecords full (k :: ks) =
        full.filter (fun x => decide (x.1 = k)) ++ trieGatherRecords full ks := by
      rw [trieGatherRecords, trieGatherRecords, List.flatMap_cons]
    rw [hstep, ← Multiset.coe_add, hks, ← Multiset.filter_coe]
    rw [Multiset.filter_add_filter]
    have h1 : Multiset.filter (fun x : MolB ρ => x.1 = k ∧ x.1 ∈ ks) ↑full = 0 := by
      rw [Multiset.filter_eq_nil]
      rintro a _ ⟨ha1, ha2⟩
      exact h.1 (ha1 ▸ ha2)
    rw [h1, add_zero]
    refine Multiset.filter_congr ?_
    intro x _
    constructor
    · rintro (h' | h')
      · simp [h']
      · simp [h']
    · intro h'
      rcases List.mem_cons.mp h' with h' | h'
      · exact Or.inl h'
      · exact Or.inr h'

/-- `size_cluster` (the sum of the trie's per-key occurrence counts) equals
the number of gathered records: duplicate-barcode reads are counted
correctly. -/
theorem trieSizeCluster_eq_length (full : List (MolB ρ)) (nbhd : List (List Char)) :
    trieSizeCluster full nbhd = (trieGatherRecords full nbhd).length := by
  induction nbhd with
  | nil => rfl
  | cons k ks ih =>
    rw [trieSizeCluster, trieGatherRecords, List.map_cons, List.sum_cons, List.flatMap_cons,
      List.length_append, ← filter_barcode_length_count]
    rw [trieSizeCluster, trieGatherRecords] at ih
    omega

/-- A record's own barcode always lies in its queried neighborhood while
still indexed. -/
theorem mem_find_self {d : List Char → List Char → ℕ} (hd : ∀ q, d q q = 0)
    (keys : List (List Char)) (q : List Char) (mm : ℕ) (hq : q ∈ keys) :
    q ∈ find_equal_length_optimized d keys q mm := by
  rw [find_equal_length_optimized, List.mem_filter]
  exact ⟨hq, by simp [hd q]⟩

/-- Main invariants of the trie processing loop, for any state whose key set
is duplicate-free and whose keys all occur among the remaining records'
barcodes: the gathered groups partition the records with a consumed barcode,
the summed cluster sizes count exactly those records, and the emitted reads
form a sub-multiset of the gathered reads. -/
theorem trieTrace_invariants (d : List Char → List Char → ℕ) (hd : ∀ q, d q q = 0)
    (mm mcs : ℕ) (choiceR : List ρ → ρ)
    (hchoiceR : ∀ l : List ρ, l ≠ [] → choiceR l ∈ l) (full : List (MolB ρ)) :
    ∀ (todo : List (MolB ρ)) (keys : List (List Char)), keys.Nodup →
      (∀ k ∈ keys, k ∈ todo.map (·.1)) →
      ((↑(((trieTrace d mm mcs choiceR full keys todo).map
            (fun s => s.original_records)).flatten) :
          Multiset (MolB ρ)) =
        Multiset.filter (fun x : MolB ρ => x.1 ∈ keys) (↑full : Multiset (MolB ρ))) ∧
      (((trieTrace d mm mcs choiceR full keys todo).map (fun s => s.size_cluster)).sum =
        Multiset.card (Multiset.filter (fun x : MolB ρ => x.1 ∈ keys)
          (↑full : Multiset (MolB ρ)))) ∧
      ((↑((trieTrace d mm mcs choiceR full keys todo).flatMap (fun s => s.emitted)) :
          Multiset ρ) ≤
        Multiset.map (fun x => x.2) (Multiset.filter (fun x : MolB ρ => x.1 ∈ keys)
          (↑full : Multiset (MolB ρ)))) := by
  intro todo
  induction todo with
  | nil =>
    intro keys hnd hmem
    have hkeys : keys = [] := by
      cases keys with
      | nil => rfl
      | cons k ks => exact absurd (hmem k (by simp)) (by simp)
    subst hkeys
    refine ⟨by simp [trieTrace], by simp [trieTrace], by simp [trieTrace]⟩
  | cons r rs ih =>
    intro keys hnd hmem
    set nbhd := find_equal_length_optimized d keys r.1 mm with hnbhd
    have hnbhd_sub : nbhd ⊆ keys := by
      intro k hk
      rw [hnbhd, find_equal_length_optimized, List.mem_filter] at hk
      exact hk.1
    have hnbhd_nd : nbhd.Nodup := hnd.filter _
    set keys' := keys.filter (fun k => decide (k ∉ nbhd)) with hkeys'
    have hnd' : keys'.Nodup := hnd.filter _
    have hmem' : ∀ k ∈ keys', k ∈ rs.map (·.1) := by
      intro k hk
      rw [hkeys', List.mem_filter] at hk
      obtain ⟨hk1, hk2⟩ := hk
      have hk3 : k ∉ nbhd := by simpa using hk2
      have : k ≠ r.1 := by
        intro heq
        exact hk3 (heq ▸ mem_find_self hd keys r.1 mm (heq ▸ hk1))
      have := hmem k hk1
      rw [List.map_cons] at this
      rcases List.mem_cons.mp this with h | h
      · exact absurd h ‹k ≠ r.1›
      · exact h
    obtain ⟨ihA, ihB, ihC⟩ := ih keys' hnd' hmem'
    have hpart : Multiset.filter (fun x : MolB ρ => x.1 ∈ keys) ↑full =
        Multiset.filter (fun x => x.1 ∈ nbhd) ↑full +
          Multiset.filter (fun x => x.1 ∈ keys') ↑full := by
      rw [Multiset.filter_add_filter]
      have h1 : Multiset.filter (fun x : MolB ρ => x.1 ∈ nbhd ∧ x.1 ∈ keys') ↑full = 0 := by
        rw [Multiset.filter_eq_nil]
        rintro a _ ⟨ha1, ha2⟩
        rw [hkeys', List.mem_filter] at ha2
        exact (by simpa using ha2.2 : a.1 ∉ nbhd) ha1
      rw [h1, add_zero]
      refine (Multiset.filter_congr ?_).symm
      intro x _
      constructor
      · rintro (h' | h')
        · exact hnbhd_sub h'
        · exact (List.mem_filter.mp (hkeys' ▸ h')).1
      · intro h'
        by_cases hx : x.1 ∈ nbhd
        · exact Or.inl hx
        · exact Or.inr (by
            rw [hkeys', List.mem_filter]
            exact ⟨h', by simpa using hx⟩)
    have hgather : (↑(trieGatherRecords full nbhd) : Multiset (MolB ρ)) =
        Multiset.filter (fun x => x.1 ∈ nbhd) ↑full :=
      trieGatherRecords_coe full nbhd hnbhd_nd
    have hstep : trieTrace d mm mcs choiceR full keys (r :: rs) =
        ⟨keys, nbhd, trieSizeCluster full nbhd, trieGatherRecords full nbhd,
          if mcs ≤ trieSizeCluster full nbhd ∧
              ((trieGatherRecords full nbhd).map (·.2)).isEmpty = false then
            [choiceR ((trieGatherRecords full nbhd).map (·.2))]
          else (trieGatherRecords full nbhd).map (·.2)⟩ ::
          trieTrace d mm mcs choiceR full keys' rs := rfl
    refine ⟨?_, ?_, ?_⟩
    · rw [hstep]
      simp only [List.map_cons, List.flatten_cons]
      rw [← Multiset.coe_add, hgather, ihA, hpart]
    · rw [hstep]
      simp only [List.map_cons, List.sum_cons]
      rw [ihB, hpart]
      simp only [Multiset.card_add]
      rw [trieSizeCluster_eq_length]
      have : (trieGatherRecords full nbhd).length =
          Multiset.card (Multiset.filter (fun x : MolB ρ => x.1 ∈ nbhd) ↑full) := by
        rw [← hgather, Multiset.coe_card]
      omega
    · rw [hstep]
      simp only [List.flatMap_cons]
      have hsum : (↑((if mcs ≤ trieSizeCluster full nbhd ∧
            ((trieGatherRecords full nbhd).map (·.2)).isEmpty = false then
              [choiceR ((trieGatherRecords full nbhd).map (·.2))]
            else (trieGatherRecords full nbhd).map (·.2)) ++
          (trieTrace d mm mcs choiceR full keys' rs).flatMap (·.emitted)) : Multiset ρ) =
          ↑(if mcs ≤ trieSizeCluster full nbhd ∧
            ((trieGatherRecords full nbhd).map (·.2)).isEmpty = false then
              [choiceR ((trieGatherRecords full nbhd).map (·.2))]
            else (trieGatherRecords full nbhd).map (·.2)) +
          ↑((trieTrace d mm mcs choiceR full keys' rs).flatMap (·.emitted)) := rfl
      rw [hsum, hpart, Multiset.map_add]
      refine add_le_add ?_ ihC
      have hbase : (↑((trieGatherRecords full nbhd).map (·.2)) : Multiset ρ) =
          Multiset.map (fun x => x.2)
            (Multiset.filter (fun x : MolB ρ => x.1 ∈ nbhd) ↑full) := by
        rw [← hgather]
        rfl
      by_cases hc : mcs ≤ trieSizeCluster full nbhd ∧
          ((trieGatherRecords full nbhd).map (·.2)).isEmpty = false
      · rw [if_pos hc]
        have hne : (trieGatherRecords full nbhd).map (·.2) ≠ [] := by
          intro h
          rw [h] at hc
          simp at hc
        have hmem := hchoiceR _ hne
        rw [← hbase]
        exact Multiset.singleton_le.mpr (Multiset.mem_coe.mpr hmem)
      · rw [if_neg hc, hbase]

/-! ## C2: every strategy returns a system of representatives of a partition -/

theorem hamming_distance_self (q : List Char) : hamming_distance q q = 0 := by
  induction q with
  | nil => rfl
  | cons a as ih => simpa [hamming_distance, List.countP_cons] using ih

theorem levenshtein_distance_self (q : List Char) : levenshtein_distance q q = 0 := by
  induction q with
  | nil => simp [levenshtein_distance]
  | cons a as ih => simpa [levenshtein_distance] using ih

theorem trieDist_self (allow_indels : Bool) (q : List Char) : trieDist allow_indels q q = 0 := by
  cases allow_indels with
  | false => simpa [trieDist] using hamming_distance_self q
  | true => simpa [trieDist] using levenshtein_distance_self q

theorem naiveClusters_flatten_perm (allowed_mismatches : ℕ)
    (molecular_barcodes : List (MolB ρ)) :
    ((naiveClusters allowed_mismatches molecular_barcodes).flatten).Perm
      molecular_barcodes := by
  rw [naiveClusters_eq_chainSplit, chainSplit_flatten]
  exact sortMolecularBarcodes_perm _

/-- The reads emitted by the representative-selection policy form a
sub-multiset of the member reads of the clusters. -/
theorem resolveClusters_coe_le (choice : List (MolB ρ) → MolB ρ) (mcs : ℕ)
    (cls : List (List (MolB ρ))) (hchoice : ∀ l : List (MolB ρ), l ≠ [] → choice l ∈ l)
    (hne : ∀ c ∈ cls, c ≠ []) :
    (↑(resolveClusters choice mcs cls) : Multiset ρ) ≤
      Multiset.map (fun x : MolB ρ => x.2) (↑cls.flatten : Multiset (MolB ρ)) := by
  induction cls with
  | nil => simp [resolveClusters]
  | cons c cs ih =>
    have hstep : resolveClusters choice mcs (c :: cs) =
        (if mcs ≤ c.length then [(choice c).2] else c.map (·.2)) ++
          resolveClusters choice mcs cs := by
      rw [resolveClusters, resolveClusters, List.flatMap_cons]
    rw [hstep, ← Multiset.coe_add, List.flatten_cons, ← Multiset.coe_add, Multiset.map_add]
    refine add_le_add ?_ (ih (fun d hd => hne d (List.mem_cons_of_mem _ hd)))
    by_cases h : mcs ≤ c.length
    · rw [if_pos h]
      have hcm := hchoice c (hne c (by simp))
      exact Multiset.singleton_le.mpr
        (Multiset.mem_map.mpr ⟨choice c, Multiset.mem_coe.mpr hcm, rfl⟩)
    · rw [if_neg h]
      exact le_of_eq rfl

/-- Soundness of the output of the shared representative policy with respect
to a partition of the input records. -/
theorem resolve_output_sound (choice : List (MolB ρ) → MolB ρ) (mcs : ℕ)
    (cls : List (List (MolB ρ))) (l : List (MolB ρ))
    (hchoice : ∀ m : List (MolB ρ), m ≠ [] → choice m ∈ m)
    (hne : ∀ c ∈ cls, c ≠ []) (hperm : cls.flatten.Perm l)
    (hnodup : (l.map (fun x => x.2)).Nodup) :
    (∀ r ∈ resolveClusters choice mcs cls, r ∈ l.map (fun x => x.2)) ∧
    (resolveClusters choice mcs cls).Nodup := by
  have hle : (↑(resolveClusters choice mcs cls) : Multiset ρ) ≤
      ↑(l.map (fun x => x.2)) := by
    refine le_trans (resolveClusters_coe_le choice mcs cls hchoice hne) (le_of_eq ?_)
    rw [show (↑(l.map (fun x => x.2)) : Multiset ρ) =
        Multiset.map (fun x : MolB ρ => x.2) (↑l : Multiset (MolB ρ)) from rfl,
      Multiset.coe_eq_coe.mpr hperm]
  constructor
  · intro r hr
    exact Multiset.mem_coe.mp (Multiset.mem_of_le hle (Multiset.mem_coe.mpr hr))
  · exact Multiset.coe_nodup.mp (Multiset.nodup_of_le hle (Multiset.coe_nodup.mpr hnodup))

theorem flatten_filter_ne_nil (ls : List (List α)) :
    (ls.filter (fun c => !c.isEmpty)).flatten = ls.flatten := by
  induction ls with
  | nil => rfl
  | cons c cs ih =>
    cases c with
    | nil => simpa [List.filter_cons] using ih
    | cons a as => simp [List.filter_cons, ih]

/-- With the trie's real initial key set (one key per distinct barcode), the
gathered groups partition the whole record list. -/
theorem triePartition_flatten_perm (d : List Char → List Char → ℕ)
    (hd : ∀ q, d q q = 0) (mm mcs : ℕ) (choiceR : List ρ → ρ)
    (hchoiceR : ∀ l : List ρ, l ≠ [] → choiceR l ∈ l)
    (molecular_barcodes : List (MolB ρ)) :
    ((triePartition d mm mcs choiceR molecular_barcodes).flatten).Perm
      molecular_barcodes := by
  have hinv := (trieTrace_invariants d hd mm mcs choiceR hchoiceR molecular_barcodes
    molecular_barcodes (trieInitialKeys molecular_barcodes)
    (List.nodup_dedup _)
    (fun k hk => List.dedup_subset _ hk)).1
  have hfull : Multiset.filter (fun x : MolB ρ => x.1 ∈ trieInitialKeys molecular_barcodes)
      (↑molecular_barcodes : Multiset (MolB ρ)) = ↑molecular_barcodes := by
    rw [Multiset.filter_eq_self]
    intro a ha
    exact List.mem_dedup.mpr (List.mem_map.mpr ⟨a, Multiset.mem_coe.mp ha, rfl⟩)
  rw [hfull] at hinv
  rw [← Multiset.coe_eq_coe, triePartition, flatten_filter_ne_nil]
  exact hinv

/-- The trie clusterer's emitted reads form a sub-multiset of the input
reads. -/
theorem trieOutput_coe_le (d : List Char → List Char → ℕ)
    (hd : ∀ q, d q q = 0) (mm mcs : ℕ) (choiceR : List ρ → ρ)
    (hchoiceR : ∀ l : List ρ, l ≠ [] → choiceR l ∈ l)
    (molecular_barcodes : List (MolB ρ)) :
    (↑((trieTrace d mm mcs choiceR molecular_barcodes
        (trieInitialKeys molecular_barcodes) molecular_barcodes).flatMap
        (fun s => s.emitted)) : Multiset ρ) ≤
      ↑(molecular_barcodes.map (fun x => x.2)) := by
  have hinv := (trieTrace_invariants d hd mm mcs choiceR hchoiceR molecular_barcodes
    molecular_barcodes (trieInitialKeys molecular_barcodes)
    (List.nodup_dedup _)
    (fun k hk => List.dedup_subset _ hk)).2.2
  have hfull : Multiset.filter (fun x : MolB ρ => x.1 ∈ trieInitialKeys molecular_barcodes)
      (↑molecular_barcodes : Multiset (MolB ρ)) = ↑molecular_barcodes := by
    rw [Multiset.filter_eq_self]
    intro a ha
    exact List.mem_dedup.mpr (List.mem_map.mpr ⟨a, Multiset.mem_coe.mp ha, rfl⟩)
  rw [hfull] at hinv
  exact hinv

theorem foldl_addToComponents_flatten (allowed_mismatches : ℕ) :
    ∀ (l : List (MolB ρ)) (comps : List (List (MolB ρ))),
      (↑(l.foldl (fun comps x => addToComponents allowed_mismatches x comps) comps).flatten :
        Multiset (MolB ρ)) = ↑comps.flatten + ↑l := by
  intro l
  induction l with
  | nil => intro comps; simp
  | cons x xs ih =>
    intro comps
    rw [List.foldl_cons, ih]
    have haddstep : (↑(addToComponents allowed_mismatches x comps).flatten :
        Multiset (MolB ρ)) = x ::ₘ ↑comps.flatten := by
      rw [addToComponents, List.flatten_cons]
      have hperm : ((comps.filter (fun c =>
          c.any (fun y => decide (hamming_distance x.1 y.1 ≤ allowed_mismatches)))).flatten ++
          (comps.filter (fun c =>
          !(c.any (fun y => decide (hamming_distance x.1 y.1 ≤ allowed_mismatches))))).flatten).Perm
          comps.flatten := by
        rw [← List.flatten_append]
        exact (List.filter_append_perm _ comps).flatten
      calc (↑(x :: ((comps.filter (fun c =>
              c.any (fun y => decide (hamming_distance x.1 y.1 ≤ allowed_mismatches)))).flatten ++
              (comps.filter (fun c =>
              !(c.any (fun y => decide (hamming_distance x.1 y.1 ≤ allowed_mismatches))))).flatten)) :
            Multiset (MolB ρ))
          = x ::ₘ ↑(((comps.filter (fun c =>
              c.any (fun y => decide (hamming_distance x.1 y.1 ≤ allowed_mismatches)))).flatten ++
              (comps.filter (fun c =>
              !(c.any (fun y => decide (hamming_distance x.1 y.1 ≤ allowed_mismatches))))).flatten)) := rfl
        _ = x ::ₘ ↑comps.flatten := by rw [Multiset.coe_eq_coe.mpr hperm]
    rw [haddstep]
    rw [show (↑(x :: xs) : Multiset (MolB ρ)) = x ::ₘ ↑xs from rfl, Multiset.add_cons,
      Multiset.cons_add]

theorem foldl_addToComponents_ne_nil (allowed_mismatches : ℕ) :
    ∀ (l : List (MolB ρ)) (comps : List (List (MolB ρ))), (∀ c ∈ comps, c ≠ []) →
      ∀ c ∈ l.foldl (fun comps x => addToComponents allowed_mismatches x comps) comps,
        c ≠ [] := by
  intro l
  induction l with
  | nil => intro comps h; exact h
  | cons x xs ih =>
    intro comps h
    rw [List.foldl_cons]
    refine ih _ ?_
    intro c hc
    rw [addToComponents] at hc
    rcases List.mem_cons.mp hc with hc | hc
    · simp [hc]
    · exact h c (List.mem_filter.mp hc).1

theorem singleLinkageComponents_flatten_perm (allowed_mismatches : ℕ)
    (l : List (MolB ρ)) :
    ((singleLinkageComponents allowed_mismatches l).flatten).Perm l := by
  rw [← Multiset.coe_eq_coe, singleLinkageComponents,
    foldl_addToComponents_flatten allowed_mismatches l []]
  simp

theorem hierPartition_flatten_perm (allowed_mismatches : ℕ) (l : List (MolB ρ)) :
    ((hierPartition allowed_mismatches l).flatten).Perm l := by
  rw [hierPartition]
  by_cases h : l.length ≤ 2
  · rw [if_pos h]
    exact naiveClusters_flatten_perm allowed_mismatches l
  · rw [if_neg h]
    exact singleLinkageComponents_flatten_perm allowed_mismatches l

theorem hierPartition_ne_nil (allowed_mismatches : ℕ) (l : List (MolB ρ)) :
    ∀ c ∈ hierPartition allowed_mismatches l, c ≠ [] := by
  rw [hierPartition]
  by_cases h : l.length ≤ 2
  · rw [if_pos h, naiveClusters_eq_chainSplit]
    exact chainSplit_ne_nil _ _
  · rw [if_neg h]
    exact foldl_addToComponents_ne_nil allowed_mismatches l [] (by simp)

theorem countHierarchical_eq_resolve (choice : List (MolB ρ) → MolB ρ)
    (l : List (MolB ρ)) (allowed_mismatches min_cluster_size : ℕ) (method : String) :
    countMolecularBarcodesClustersHierarchical choice l allowed_mismatches min_cluster_size
        method =
      resolveClusters choice min_cluster_size (hierPartition allowed_mismatches l) := by
  rw [countMolecularBarcodesClustersHierarchical, hierPartition]
  by_cases h : l.length ≤ 2
  · rw [if_pos h, if_pos h]
    rfl
  · rw [if_neg h, if_neg h]

/-- C2: for every strategy, the returned reads are a system of representatives
of a partition of the input records (with distinct read handles): the
clusters concatenate to a permutation of the input, cluster sizes sum to the
input size, every output read comes from the input, and no read handle is
emitted twice. -/
theorem strategies_coverage (choice : List (MolB ρ) → MolB ρ) (choiceR : List ρ → ρ)
    (molecular_barcodes : List (MolB ρ)) (allowed_mismatches min_cluster_size : ℕ)
    (allow_indels : Bool) (method : String)
    (hchoice : ∀ m : List (MolB ρ), m ≠ [] → choice m ∈ m)
    (hchoiceR : ∀ m : List ρ, m ≠ [] → choiceR m ∈ m)
    (hnodup : (molecular_barcodes.map (fun x => x.2)).Nodup) :
    ((naiveClusters allowed_mismatches molecular_barcodes).flatten).Perm
      molecular_barcodes ∧
    ((naiveClusters allowed_mismatches molecular_barcodes).map List.length).sum =
      molecular_barcodes.length ∧
    (∀ r ∈ countMolecularBarcodesClustersNaive choice molecular_barcodes allowed_mismatches
        min_cluster_size, r ∈ molecular_barcodes.map (fun x => x.2)) ∧
    (countMolecularBarcodesClustersNaive choice molecular_barcodes allowed_mismatches
      min_cluster_size).Nodup ∧
    ((triePartition (trieDist allow_indels) allowed_mismatches min_cluster_size choiceR
        molecular_barcodes).flatten).Perm molecular_barcodes ∧
    ((triePartition (trieDist allow_indels) allowed_mismatches min_cluster_size choiceR
        molecular_barcodes).map List.length).sum = molecular_barcodes.length ∧
    (∀ r ∈ countMolecularBarcodesPrefixtrie choiceR molecular_barcodes allowed_mismatches
        min_cluster_size allow_indels, r ∈ molecular_barcodes.map (fun x => x.2)) ∧
    (countMolecularBarcodesPrefixtrie choiceR molecular_barcodes allowed_mismatches
      min_cluster_size allow_indels).Nodup ∧
    ((hierPartition allowed_mismatches molecular_barcodes).flatten).Perm
      molecular_barcodes ∧
    ((hierPartition allowed_mismatches molecular_barcodes).map List.length).sum =
      molecular_barcodes.length ∧
    (∀ r ∈ countMolecularBarcodesClustersHierarchical choice molecular_barcodes
        allowed_mismatches min_cluster_size method,
      r ∈ molecular_barcodes.map (fun x => x.2)) ∧
    (countMolecularBarcodesClustersHierarchical choice molecular_barcodes
      allowed_mismatches min_cluster_size method).Nodup := by
  have hnaive_perm := naiveClusters_flatten_perm allowed_mismatches molecular_barcodes
  have hnaive_ne : ∀ c ∈ naiveClusters allowed_mismatches molecular_barcodes, c ≠ [] := by
    rw [naiveClusters_eq_chainSplit]
    exact chainSplit_ne_nil _ _
  have hnaive_out := resolve_output_sound choice min_cluster_size
    (naiveClusters allowed_mismatches molecular_barcodes) molecular_barcodes hchoice
    hnaive_ne hnaive_perm hnodup
  have htrie_perm := triePartition_flatten_perm (trieDist allow_indels)
    (trieDist_self allow_indels) allowed_mismatches min_cluster_size choiceR hchoiceR
    molecular_barcodes
  have htrie_le := trieOutput_coe_le (trieDist allow_indels) (trieDist_self allow_indels)
    allowed_mismatches min_cluster_size choiceR hchoiceR molecular_barcodes
  have hhier_perm := hierPartition_flatten_perm allowed_mismatches molecular_barcodes
  have hhier_out := resolve_output_sound choice min_cluster_size
    (hierPartition allowed_mismatches molecular_barcodes) molecular_barcodes hchoice
    (hierPartition_ne_nil allowed_mismatches molecular_barcodes) hhier_perm hnodup
  refine ⟨hnaive_perm, ?_, hnaive_out.1, hnaive_out.2, htrie_perm, ?_, ?_, ?_, hhier_perm,
    ?_, ?_, ?_⟩
  · rw [← List.length_flatten, hnaive_perm.length_eq]
  · rw [← List.length_flatten, htrie_perm.length_eq]
  · intro r hr
    exact Multiset.mem_coe.mp (Multiset.mem_of_le htrie_le (Multiset.mem_coe.mpr hr))
  · exact Multiset.coe_nodup.mp
      (Multiset.nodup_of_le htrie_le (Multiset.coe_nodup.mpr hnodup))
  · rw [← List.length_flatten, hhier_perm.length_eq]
  · intro r hr
    rw [countHierarchical_eq_resolve] at hr
    exact hhier_out.1 r hr
  · rw [countHierarchical_eq_resolve]
    exact hhier_out.2

/-- Witness for C2 at a concrete input. -/
theorem strategies_coverage_witness :
    ((naiveClusters 1 [((['A','A'],10) : MolB ℕ), ((['A','C'],20)),
        ((['T','T'],30))]).flatten).Perm
      [((['A','A'],10) : MolB ℕ), ((['A','C'],20)), ((['T','T'],30))] ∧
    ((naiveClusters 1 [((['A','A'],10) : MolB ℕ), ((['A','C'],20)),
        ((['T','T'],30))]).map List.length).sum =
      [((['A','A'],10) : MolB ℕ), ((['A','C'],20)), ((['T','T'],30))].length ∧
    (∀ r ∈ countMolecularBarcodesClustersNaive (headChoice ((['A','A'],10) : MolB ℕ))
        [((['A','A'],10) : MolB ℕ), ((['A','C'],20)), ((['T','T'],30))] 1 2,
      r ∈ [((['A','A'],10) : MolB ℕ), ((['A','C'],20)), ((['T','T'],30))].map
        (fun x => x.2)) ∧
    (countMolecularBarcodesClustersNaive (headChoice ((['A','A'],10) : MolB ℕ))
      [((['A','A'],10) : MolB ℕ), ((['A','C'],20)), ((['T','T'],30))] 1 2).Nodup ∧
    ((triePartition (trieDist false) 1 2 (headChoice 0)
        [((['A','A'],10) : MolB ℕ), ((['A','C'],20)), ((['T','T'],30))]).flatten).Perm
      [((['A','A'],10) : MolB ℕ), ((['A','C'],20)), ((['T','T'],30))] ∧
    ((triePartition (trieDist false) 1 2 (headChoice 0)
        [((['A','A'],10) : MolB ℕ), ((['A','C'],20)),
          ((['T','T'],30))]).map List.length).sum =
      [((['A','A'],10) : MolB ℕ), ((['A','C'],20)), ((['T','T'],30))].length ∧
    (∀ r ∈ countMolecularBarcodesPrefixtrie (headChoice 0)
        [((['A','A'],10) : MolB ℕ), ((['A','C'],20)), ((['T','T'],30))] 1 2 false,
      r ∈ [((['A','A'],10) : MolB ℕ), ((['A','C'],20)), ((['T','T'],30))].map
        (fun x => x.2)) ∧
    (countMolecularBarcodesPrefixtrie (headChoice 0)
      [((['A','A'],10) : MolB ℕ), ((['A','C'],20)), ((['T','T'],30))] 1 2 false).Nodup ∧
    ((hierPartition 1 [((['A','A'],10) : MolB ℕ), ((['A','C'],20)),
        ((['T','T'],30))]).flatten).Perm
      [((['A','A'],10) : MolB ℕ), ((['A','C'],20)), ((['T','T'],30))] ∧
    ((hierPartition 1 [((['A','A'],10) : MolB ℕ), ((['A','C'],20)),
        ((['T','T'],30))]).map List.length).sum =
      [((['A','A'],10) : MolB ℕ), ((['A','C'],20)), ((['T','T'],30))].length ∧
    (∀ r ∈ countMolecularBarcodesClustersHierarchical (headChoice ((['A','A'],10) : MolB ℕ))
        [((['A','A'],10) : MolB ℕ), ((['A','C'],20)), ((['T','T'],30))] 1 2 "single",
      r ∈ [((['A','A'],10) : MolB ℕ), ((['A','C'],20)), ((['T','T'],30))].map
        (fun x => x.2)) ∧
    (countMolecularBarcodesClustersHierarchical (headChoice ((['A','A'],10) : MolB ℕ))
      [((['A','A'],10) : MolB ℕ), ((['A','C'],20)), ((['T','T'],30))] 1 2 "single").Nodup :=
  strategies_coverage (headChoice ((['A','A'],10) : MolB ℕ)) (headChoice 0)
    [((['A','A'],10) : MolB ℕ), ((['A','C'],20)), ((['T','T'],30))] 1 2 false "single"
    (headChoice_mem ((['A','A'],10) : MolB ℕ)) (headChoice_mem 0) (by decide)

/-! ## C4: the trie step on a not-yet-consumed barcode -/

/-- Written from C4's words, for comparison with the embedded loop: for a
barcode not yet consumed, query the index for the full within-distance
neighborhood, take the cluster size as the sum of occurrence counts, gather
every mapped read, remove every neighborhood barcode, and emit one chosen
read when the summed size reaches `min_cluster_size`, else all gathered
reads. -/
def trieStepSpec (d : List Char → List Char → ℕ) (mm mcs : ℕ) (choiceR : List ρ → ρ)
    (full : List (MolB ρ)) (keys : List (List Char)) (r : MolB ρ) :
    List (List Char) × List ρ :=
  let nbhd := find_equal_length_optimized d keys r.1 mm
  let gathered := (trieGatherRecords full nbhd).map (fun x => x.2)
  (keys.filter (fun k => decide (k ∉ nbhd)),
   if mcs ≤ trieSizeCluster full nbhd then [choiceR gathered] else gathered)

/-- C4: for every record whose barcode is still indexed, one iteration of the
trie clusterer behaves exactly as the claim describes: it queries the full
within-distance neighborhood, the summed occurrence counts equal the number
of gathered reads (which is positive), every neighborhood barcode is removed
so later iterations cannot re-claim it, and the emitted reads follow the
spec step (whose missing emptiness guard is irrelevant here since the
gathered set is nonempty). -/
theorem trie_step_characterization (d : List Char → List Char → ℕ)
    (hd : ∀ q, d q q = 0) (mm mcs : ℕ) (choiceR : List ρ → ρ) (full : List (MolB ρ))
    (keys : List (List Char)) (r : MolB ρ) (todo : List (MolB ρ))
    (hr : r ∈ full) (hk : r.1 ∈ keys) :
    trieGatherRecords full (find_equal_length_optimized d keys r.1 mm) ≠ [] ∧
    trieSizeCluster full (find_equal_length_optimized d keys r.1 mm) =
      (trieGatherRecords full (find_equal_length_optimized d keys r.1 mm)).length ∧
    (∀ k ∈ find_equal_length_optimized d keys r.1 mm,
      k ∉ (trieStepSpec d mm mcs choiceR full keys r).1) ∧
    trieTrace d mm mcs choiceR full keys (r :: todo) =
      ⟨keys, find_equal_length_optimized d keys r.1 mm,
       trieSizeCluster full (find_equal_length_optimized d keys r.1 mm),
       trieGatherRecords full (find_equal_length_optimized d keys r.1 mm),
       (trieStepSpec d mm mcs choiceR full keys r).2⟩ ::
        trieTrace d mm mcs choiceR full (trieStepSpec d mm mcs choiceR full keys r).1
          todo := by
  have hself : r.1 ∈ find_equal_length_optimized d keys r.1 mm :=
    mem_find_self hd keys r.1 mm hk
  have hrmem : r ∈ trieGatherRecords full (find_equal_length_optimized d keys r.1 mm) := by
    rw [trieGatherRecords, List.mem_flatMap]
    exact ⟨r.1, hself, List.mem_filter.mpr ⟨hr, by simp⟩⟩
  have hne : trieGatherRecords full (find_equal_length_optimized d keys r.1 mm) ≠ [] := by
    intro h
    rw [h] at hrmem
    exact absurd hrmem (List.not_mem_nil r)
  have hempty : ((trieGatherRecords full
      (find_equal_length_optimized d keys r.1 mm)).map (fun x => x.2)).isEmpty = false := by
    rw [List.isEmpty_eq_false_iff_exists_mem]
    exact ⟨r.2, List.mem_map.mpr ⟨r, hrmem, rfl⟩⟩
  refine ⟨hne, trieSizeCluster_eq_length full _, ?_, ?_⟩
  · intro k hkmem hk'
    rw [trieStepSpec] at hk'
    simp only [List.mem_filter, decide_eq_true_eq] at hk'
    exact hk'.2 hkmem
  · have hstep : trieTrace d mm mcs choiceR full keys (r :: todo) =
        ⟨keys, find_equal_length_optimized d keys r.1 mm,
         trieSizeCluster full (find_equal_length_optimized d keys r.1 mm),
         trieGatherRecords full (find_equal_length_optimized d keys r.1 mm),
         if mcs ≤ trieSizeCluster full (find_equal_length_optimized d keys r.1 mm) ∧
             ((trieGatherRecords full (find_equal_length_optimized d keys r.1 mm)).map
               (fun x => x.2)).isEmpty = false then
           [choiceR ((trieGatherRecords full
             (find_equal_length_optimized d keys r.1 mm)).map (fun x => x.2))]
         else (trieGatherRecords full (find_equal_length_optimized d keys r.1 mm)).map
           (fun x => x.2)⟩ ::
          trieTrace d mm mcs choiceR full
            (keys.filter (fun k =>
              decide (k ∉ find_equal_length_optimized d keys r.1 mm))) todo := rfl
    rw [hstep]
    congr 1
    rw [trieStepSpec]
    by_cases hcase : mcs ≤ trieSizeCluster full (find_equal_length_optimized d keys r.1 mm)
    · rw [if_pos (⟨hcase, hempty⟩ :
        mcs ≤ trieSizeCluster full (find_equal_length_optimized d keys r.1 mm) ∧
        ((trieGatherRecords full (find_equal_length_optimized d keys r.1 mm)).map
          (fun x => x.2)).isEmpty = false)]
      rw [if_pos hcase]
    · rw [if_neg (fun hcontra => hcase hcontra.1), if_neg hcase]

/-- Witness for C4 at a concrete input. -/
theorem trie_step_characterization_witness :
    trieGatherRecords [((['A','A'],1) : MolB ℕ), ((['A','C'],2))]
      (find_equal_length_optimized (trieDist false) [['A','A'], ['A','C']] ['A','A'] 1) ≠ [] ∧
    trieSizeCluster [((['A','A'],1) : MolB ℕ), ((['A','C'],2))]
      (find_equal_length_optimized (trieDist false) [['A','A'], ['A','C']] ['A','A'] 1) =
      (trieGatherRecords [((['A','A'],1) : MolB ℕ), ((['A','C'],2))]
        (find_equal_length_optimized (trieDist false) [['A','A'], ['A','C']]
          ['A','A'] 1)).length ∧
    (∀ k ∈ find_equal_length_optimized (trieDist false) [['A','A'], ['A','C']] ['A','A'] 1,
      k ∉ (trieStepSpec (trieDist false) 1 2 (headChoice 0)
        [((['A','A'],1) : MolB ℕ), ((['A','C'],2))] [['A','A'], ['A','C']]
        ((['A','A'],1) : MolB ℕ)).1) ∧
    trieTrace (trieDist false) 1 2 (headChoice 0)
        [((['A','A'],1) : MolB ℕ), ((['A','C'],2))] [['A','A'], ['A','C']]
        (((['A','A'],1) : MolB ℕ) :: [((['A','C'],2) : MolB ℕ)]) =
      ⟨[['A','A'], ['A','C']],
       find_equal_length_optimized (trieDist false) [['A','A'], ['A','C']] ['A','A'] 1,
       trieSizeCluster [((['A','A'],1) : MolB ℕ), ((['A','C'],2))]
         (find_equal_length_optimized (trieDist false) [['A','A'], ['A','C']] ['A','A'] 1),
       trieGatherRecords [((['A','A'],1) : MolB ℕ), ((['A','C'],2))]
         (find_equal_length_optimized (trieDist false) [['A','A'], ['A','C']] ['A','A'] 1),
       (trieStepSpec (trieDist false) 1 2 (headChoice 0)
         [((['A','A'],1) : MolB ℕ), ((['A','C'],2))] [['A','A'], ['A','C']]
         ((['A','A'],1) : MolB ℕ)).2⟩ ::
        trieTrace (trieDist false) 1 2 (headChoice 0)
          [((['A','A'],1) : MolB ℕ), ((['A','C'],2))]
          (trieStepSpec (trieDist false) 1 2 (headChoice 0)
            [((['A','A'],1) : MolB ℕ), ((['A','C'],2))] [['A','A'], ['A','C']]
            ((['A','A'],1) : MolB ℕ)).1 [((['A','C'],2) : MolB ℕ)] :=
  trie_step_characterization (trieDist false) (trieDist_self false) 1 2 (headChoice 0)
    [((['A','A'],1) : MolB ℕ), ((['A','C'],2))] [['A','A'], ['A','C']]
    ((['A','A'],1) : MolB ℕ) [((['A','C'],2) : MolB ℕ)] (by decide) (by decide)

/-! ## C9: records whose barcode was already consumed -/

set_option linter.unusedVariables false in
/-- C9 (amended): a record whose barcode was already consumed raises nothing;
when its whole within-distance neighborhood has also been consumed the
iteration contributes no cluster, no reads and no output and leaves the
index unchanged.  (When still-indexed keys within distance remain, the
iteration does claim them: `trie_consumed_barcode_counterexample`.) -/
theorem trie_consumed_barcode_skips (d : List Char → List Char → ℕ) (mm mcs : ℕ)
    (choiceR : List ρ → ρ) (full : List (MolB ρ)) (keys : List (List Char))
    (r : MolB ρ) (todo : List (MolB ρ)) (hk : r.1 ∉ keys)
    (hnb : find_equal_length_optimized d keys r.1 mm = []) :
    trieTrace d mm mcs choiceR full keys (r :: todo) =
      ⟨keys, [], 0, [], []⟩ :: trieTrace d mm mcs choiceR full keys todo := by
  have hkeys : keys.filter (fun k => decide (k ∉ find_equal_length_optimized d keys r.1 mm)) =
      keys := by
    rw [hnb]
    simp
  have hstep : trieTrace d mm mcs choiceR full keys (r :: todo) =
      ⟨keys, find_equal_length_optimized d keys r.1 mm,
       trieSizeCluster full (find_equal_length_optimized d keys r.1 mm),
       trieGatherRecords full (find_equal_length_optimized d keys r.1 mm),
       if mcs ≤ trieSizeCluster full (find_equal_length_optimized d keys r.1 mm) ∧
           ((trieGatherRecords full (find_equal_length_optimized d keys r.1 mm)).map
             (fun x => x.2)).isEmpty = false then
         [choiceR ((trieGatherRecords full
           (find_equal_length_optimized d keys r.1 mm)).map (fun x => x.2))]
       else (trieGatherRecords full (find_equal_length_optimized d keys r.1 mm)).map
         (fun x => x.2)⟩ ::
        trieTrace d mm mcs choiceR full
          (keys.filter (fun k =>
            decide (k ∉ find_equal_length_optimized d keys r.1 mm))) todo := rfl
  rw [hstep, hkeys, hnb]
  have h1 : trieSizeCluster full ([] : List (List Char)) = 0 := rfl
  have h2 : trieGatherRecords full ([] : List (List Char)) = [] := rfl
  rw [h1, h2]
  simp

/-- Witness for the amended C9 at a concrete state: the query barcode was
consumed and no indexed key is within distance, so the step is skipped
silently. -/
theorem trie_consumed_barcode_skips_witness :
    trieTrace (trieDist false) 1 2 (headChoice 0) [((['A','A','A'],1) : MolB ℕ)]
        [['T','T','T']] [((['A','A','A'],1) : MolB ℕ)] =
      ⟨[['T','T','T']], [], 0, [], []⟩ ::
        trieTrace (trieDist false) 1 2 (headChoice 0) [((['A','A','A'],1) : MolB ℕ)]
          [['T','T','T']] [] :=
  trie_consumed_barcode_skips (trieDist false) 1 2 (headChoice 0)
    [((['A','A','A'],1) : MolB ℕ)] [['T','T','T']] ((['A','A','A'],1) : MolB ℕ) []
    (by decide) (by decide)

/-- Counterexample to C9 as stated: with records AAA, AAT, ATT and one
mismatch allowed, the first iteration consumes AAA and AAT; the second
record's barcode (AAT) was already consumed, yet its iteration still claims
the still-indexed neighbor ATT and emits its read — it does not contribute
nothing.  The full trace is computed explicitly: the second step starts with
key set {ATT} (AAT is consumed), gathers record 3 and emits read 3. -/
theorem trie_consumed_barcode_counterexample :
    trieTrace hamming_distance 1 2 (headChoice 0)
        [((['A','A','A'],1) : MolB ℕ), ((['A','A','T'],2)), ((['A','T','T'],3))]
        (trieInitialKeys
          [((['A','A','A'],1) : MolB ℕ), ((['A','A','T'],2)), ((['A','T','T'],3))])
        [((['A','A','A'],1) : MolB ℕ), ((['A','A','T'],2)), ((['A','T','T'],3))] =
      [⟨[['A','A','A'], ['A','A','T'], ['A','T','T']], [['A','A','A'], ['A','A','T']], 2,
        [((['A','A','A'],1) : MolB ℕ), ((['A','A','T'],2))], [1]⟩,
       ⟨[['A','T','T']], [['A','T','T']], 1, [((['A','T','T'],3) : MolB ℕ)], [3]⟩,
       ⟨[], [], 0, [], []⟩] ∧
    (['A','A','T'] : List Char) ∉ [(['A','T','T'] : List Char)] ∧
    ([3] : List ℕ) ≠ [] := by
  refine ⟨by decide, by decide, by decide⟩

/-! ## Canonical form of the chained split of a sorted list

For a list sorted by a key, the chained split is determined by the list of
distinct keys: each cluster is the set of records whose key falls in the
corresponding run of the chained split of the deduplicated key list.  This
canonical form shows the naive clustering depends only on the multiset of
records (C10) and reduces to exact-barcode grouping at threshold 0 (C1). -/

section Canonical

universe v

variable {κ : Type v} [DecidableEq κ] [LinearOrder κ]

omit [LinearOrder κ] in
theorem filter_key_cons_pos (f : α → κ) (ks : List κ) (x : α) (s : Multiset α)
    (h : f x ∈ ks) :
    Multiset.filter (fun a => f a ∈ ks) (x ::ₘ s) =
      x ::ₘ Multiset.filter (fun a => f a ∈ ks) s :=
  Multiset.filter_cons_of_pos s h

omit [LinearOrder κ] in
theorem filter_key_cons_neg (f : α → κ) (ks : List κ) (x : α) (s : Multiset α)
    (h : f x ∉ ks) :
    Multiset.filter (fun a => f a ∈ ks) (x ::ₘ s) =
      Multiset.filter (fun a => f a ∈ ks) s :=
  Multiset.filter_cons_of_neg s h

/-- The chained split of a sorted record list, viewed as multisets, is the
key-run split of its deduplicated key list, each run collecting all records
whose key lies in the run. -/
theorem chainSplit_canonical (f : α → κ) (nk : κ → κ → Bool)
    (hself : ∀ k, nk k k = true) :
    ∀ s : List α, List.Sorted (fun a b => f a ≤ f b) s →
      ((chainSplit (fun a b => nk (f a) (f b)) s).map msOf =
        (chainSplit nk ((s.map f).dedup)).map
          (fun ks => Multiset.filter (fun a => f a ∈ ks) (msOf s))) ∧
      (∀ x xs, s = x :: xs → ∃ ds, (s.map f).dedup = f x :: ds) := by
  intro s
  induction s with
  | nil => exact fun _ => ⟨rfl, fun x xs h => absurd h (by simp)⟩
  | cons x xs ih =>
    intro hs
    cases xs with
    | nil =>
      refine ⟨?_, ?_⟩
      · rw [chainSplit_singleton]
        simp only [List.map_cons, List.map_nil, List.dedup_nil]
        rw [show ([f x] : List κ).dedup = [f x] from by simp, chainSplit_singleton]
        simp only [List.map_cons, List.map_nil]
        rw [msOf_cons, Multiset.filter_cons_of_pos _ (by simp), msOf_nil,
          Multiset.filter_zero]
      · intro z zs h
        obtain ⟨hz, -⟩ := List.cons.inj h
        subst hz
        exact ⟨[], by simp⟩
    | cons y ys =>
      have hsy : List.Sorted (fun a b => f a ≤ f b) (y :: ys) := hs.of_cons
      have hxy : f x ≤ f y := (List.pairwise_cons.mp hs).1 y (by simp)
      obtain ⟨ihEq, ihKey⟩ := ih hsy
      obtain ⟨ds, hds⟩ := ihKey y ys rfl
      obtain ⟨c, cs, hy⟩ :=
        chainSplit_head_structure (fun a b => nk (f a) (f b)) y ys
      have hmapcons : (x :: y :: ys).map f = f x :: (y :: ys).map f := rfl
      by_cases hfe : f x = f y
      · -- same key as the head of the tail: the record joins the head cluster
        have hnear : nk (f x) (f y) = true := by rw [hfe]; exact hself (f y)
        have hsplit := chainSplit_cons_near hy hnear
        have hmemx : f x ∈ (y :: ys).map f := by
          rw [hfe]
          exact List.mem_map.mpr ⟨y, by simp, rfl⟩
        have hdedup : ((x :: y :: ys).map f).dedup = ((y :: ys).map f).dedup := by
          rw [hmapcons, List.dedup_cons_of_mem hmemx]
        refine ⟨?_, ?_⟩
        · rw [hsplit, hdedup, hds]
          obtain ⟨kr, KS, hK⟩ := chainSplit_head_structure nk (f y) ds
          rw [hK]
          rw [hds, hK] at ihEq
          rw [hy] at ihEq
          simp only [List.map_cons] at ihEq ⊢
          obtain ⟨ihHead, ihTail⟩ := List.cons.inj ihEq
          have hflat : (f y :: kr) ++ KS.flatten = f y :: ds := by
            rw [← List.flatten_cons, ← hK, chainSplit_flatten]
          have hnddedup : (f y :: ds).Nodup := by
            rw [← hds]
            exact List.nodup_dedup _
          have hdisj : ∀ ks ∈ KS, f x ∉ ks := by
            intro ks hks hmem
            rw [← hflat, List.nodup_append] at hnddedup
            exact hnddedup.2.2 (show f y ∈ f y :: kr by simp)
              (List.mem_flatten.mpr ⟨ks, hks, hfe ▸ hmem⟩)
          have hhead : msOf (x :: y :: c) =
              Multiset.filter (fun a => f a ∈ f y :: kr) (msOf (x :: y :: ys)) := by
            rw [msOf_cons, ihHead, show msOf (x :: y :: ys) = x ::ₘ msOf (y :: ys) from rfl,
              filter_key_cons_pos f (f y :: kr) x (msOf (y :: ys)) (by simp [hfe])]
          have htail : List.map msOf cs =
              List.map (fun ks => Multiset.filter (fun a => f a ∈ ks) (msOf (x :: y :: ys)))
                KS := by
            rw [ihTail]
            refine List.map_congr_left ?_
            intro ks hks
            rw [show msOf (x :: y :: ys) = x ::ₘ msOf (y :: ys) from rfl,
              filter_key_cons_neg f ks x (msOf (y :: ys)) (hdisj ks hks)]
          rw [hhead, htail]
        · intro z zs h
          obtain ⟨hz, -⟩ := List.cons.inj h
          subst hz
          exact ⟨ds, by rw [hdedup, hds, hfe]⟩
      · -- strictly larger keys follow: the head's key is fresh
        have hnotmem : f x ∉ (y :: ys).map f := by
          intro hmem
          obtain ⟨a, ha, hfa⟩ := List.mem_map.mp hmem
          rcases List.mem_cons.mp ha with ha | ha
          · exact hfe (by rw [ha] at hfa; exact hfa.symm)
          · have hya : f y ≤ f a := (List.pairwise_cons.mp hsy).1 a ha
            exact hfe (le_antisymm hxy (hfa ▸ hya))
        have hdedup : ((x :: y :: ys).map f).dedup = f x :: ((y :: ys).map f).dedup := by
          rw [hmapcons, List.dedup_cons_of_not_mem hnotmem]
        have htailnactual : ∀ a : α, a ∈ (y :: ys) → f a ≠ f x := by
          intro a ha he
          exact hnotmem (he ▸ List.mem_map.mpr ⟨a, ha, rfl⟩)
        refine ⟨?_, ?_⟩
        · rw [hdedup, hds]
          obtain ⟨kr, KS, hK⟩ := chainSplit_head_structure nk (f y) ds
          rw [hds, hK] at ihEq
          rw [hy] at ihEq
          simp only [List.map_cons] at ihEq
          obtain ⟨ihHead, ihTail⟩ := List.cons.inj ihEq
          have hflat : (f y :: kr) ++ KS.flatten = f y :: ds := by
            rw [← List.flatten_cons, ← hK, chainSplit_flatten]
          have hfreshrun : ∀ ks ∈ (f y :: kr) :: KS, f x ∉ ks := by
            intro ks hks hmem
            have hin : f x ∈ f y :: ds := by
              rw [← hflat]
              exact List.mem_append.mpr (by
                rcases List.mem_cons.mp hks with h' | h'
                · exact Or.inl (h' ▸ hmem)
                · exact Or.inr (List.mem_flatten.mpr ⟨ks, h', hmem⟩))
            rw [← hds] at hin
            exact hnotmem (List.mem_dedup.mp hin)
          by_cases hb : nk (f x) (f y) = true
          · have hsplit := chainSplit_cons_near hy hb
            have hKsplit := chainSplit_cons_near hK hb
            rw [hsplit, hKsplit]
            simp only [List.map_cons]
            have hhead : msOf (x :: y :: c) =
                Multiset.filter (fun a => f a ∈ f x :: f y :: kr) (msOf (x :: y :: ys)) := by
              rw [msOf_cons, ihHead,
                show msOf (x :: y :: ys) = x ::ₘ msOf (y :: ys) from rfl,
                filter_key_cons_pos f (f x :: f y :: kr) x (msOf (y :: ys)) (by simp)]
              congr 1
              refine Multiset.filter_congr ?_
              intro a ha
              have hfa : f a ≠ f x := htailnactual a (Multiset.mem_coe.mp ha)
              constructor
              · intro h'
                exact List.mem_cons_of_mem _ h'
              · intro h'
                rcases List.mem_cons.mp h' with h' | h'
                · exact absurd h' hfa
                · exact h'
            have htail : List.map msOf cs =
                List.map (fun ks => Multiset.filter (fun a => f a ∈ ks) (msOf (x :: y :: ys)))
                  KS := by
              rw [ihTail]
              refine List.map_congr_left ?_
              intro ks hks
              rw [show msOf (x :: y :: ys) = x ::ₘ msOf (y :: ys) from rfl,
                filter_key_cons_neg f ks x (msOf (y :: ys))
                  (hfreshrun ks (List.mem_cons_of_mem _ hks))]
            rw [hhead, htail]
          · have hbf : nk (f x) (f y) = false := by
              cases hcase : nk (f x) (f y) with
              | false => rfl
              | true => exact absurd hcase hb
            have hsplit := chainSplit_cons_far hy hbf
            have hKsplit := chainSplit_cons_far hK hbf
            rw [hsplit, hKsplit]
            simp only [List.map_cons]
            have hzero : Multiset.filter (fun a => f a ∈ [f x]) (msOf (y :: ys)) = 0 :=
              Multiset.filter_eq_nil.mpr (fun a ha hmem =>
                htailnactual a (Multiset.mem_coe.mp ha) (by simpa using hmem))
            have hsingle : msOf [x] =
                Multiset.filter (fun a => f a ∈ [f x]) (msOf (x :: y :: ys)) := by
              rw [show msOf (x :: y :: ys) = x ::ₘ msOf (y :: ys) from rfl,
                filter_key_cons_pos f [f x] x (msOf (y :: ys)) (by simp), hzero]
              rfl
            have hmid : msOf (y :: c) =
                Multiset.filter (fun a => f a ∈ f y :: kr) (msOf (x :: y :: ys)) := by
              rw [show msOf (x :: y :: ys) = x ::ₘ msOf (y :: ys) from rfl,
                filter_key_cons_neg f (f y :: kr) x (msOf (y :: ys))
                  (hfreshrun (f y :: kr) (by simp)), ihHead]
            have htail : List.map msOf cs =
                List.map (fun ks => Multiset.filter (fun a => f a ∈ ks) (msOf (x :: y :: ys)))
                  KS := by
              rw [ihTail]
              refine List.map_congr_left ?_
              intro ks hks
              rw [show msOf (x :: y :: ys) = x ::ₘ msOf (y :: ys) from rfl,
                filter_key_cons_neg f ks x (msOf (y :: ys))
                  (hfreshrun ks (List.mem_cons_of_mem _ hks))]
            rw [hsingle, hmid, htail]
        · intro z zs h
          obtain ⟨hz, -⟩ := List.cons.inj h
          subst hz
          exact ⟨((y :: ys).map f).dedup, hdedup⟩

end Canonical

/-! ## C10: the naive clustering depends only on the multiset of records -/

/-- The naive clusters in canonical form: the chained split of the distinct
sorted barcodes determines the clusters, each cluster collecting all records
whose barcode lies in its key run. -/
theorem near_hamming_self (allowed_mismatches : ℕ) (k : List Char) :
    (decide (hamming_distance k k ≤ allowed_mismatches) : Bool) = true := by
  simp [hamming_distance_self]

theorem naiveClusters_canonical (allowed_mismatches : ℕ) (l : List (MolB ρ)) :
    (naiveClusters allowed_mismatches l).map msOf =
      (chainSplit (fun b c => decide (hamming_distance b c ≤ allowed_mismatches))
        (((sortMolecularBarcodes l).map (fun x => x.1)).dedup)).map
        (fun ks => Multiset.filter (fun x => x.1 ∈ ks)
          (msOf (sortMolecularBarcodes l))) := by
  rw [naiveClusters_eq_chainSplit]
  have h := (@chainSplit_canonical (MolB ρ) (List Char) _ _ (fun x => x.1)
    (fun b c => decide (hamming_distance b c ≤ allowed_mismatches))
    (near_hamming_self allowed_mismatches) (sortMolecularBarcodes l)
    (sortMolecularBarcodes_sorted l)).1
  rw [h]
  congr 1
  funext ks
  congr 1

/-- The barcode sequences of two sorted permutations agree. -/
theorem sorted_map_fst_eq (l₁ l₂ : List (MolB ρ)) (h : l₁.Perm l₂) :
    (sortMolecularBarcodes l₁).map (fun x => x.1) =
      (sortMolecularBarcodes l₂).map (fun x => x.1) := by
  have hp : ((sortMolecularBarcodes l₁).map (fun x => x.1)).Perm
      ((sortMolecularBarcodes l₂).map (fun x => x.1)) :=
    (((sortMolecularBarcodes_perm l₁).trans h).trans
      (sortMolecularBarcodes_perm l₂).symm).map _
  have hs₁ : List.Sorted (fun a b : List Char => a ≤ b)
      ((sortMolecularBarcodes l₁).map (fun x => x.1)) :=
    List.Pairwise.map _ (fun a b hab => hab) (sortMolecularBarcodes_sorted l₁)
  have hs₂ : List.Sorted (fun a b : List Char => a ≤ b)
      ((sortMolecularBarcodes l₂).map (fun x => x.1)) :=
    List.Pairwise.map _ (fun a b hab => hab) (sortMolecularBarcodes_sorted l₂)
  exact List.eq_of_perm_of_sorted hp hs₁ hs₂

/-- C10: the naive clusterer computes the same partition of records into
clusters for every two input lists that are permutations of each other: it
re-sorts by barcode before the sweep, so cluster membership depends only on
the multiset of records.  (The clusters even come out in the same order, so
the lists of cluster multisets are equal, which is stronger than equality of
the multiset of record groups.) -/
theorem naive_partition_order_independent (l₁ l₂ : List (MolB ρ))
    (allowed_mismatches : ℕ) (h : l₁.Perm l₂) :
    (naiveClusters allowed_mismatches l₁).map msOf =
      (naiveClusters allowed_mismatches l₂).map msOf := by
  rw [naiveClusters_canonical, naiveClusters_canonical, sorted_map_fst_eq l₁ l₂ h]
  have hms : msOf (sortMolecularBarcodes l₁) = msOf (sortMolecularBarcodes l₂) :=
    Multiset.coe_eq_coe.mpr (((sortMolecularBarcodes_perm l₁).trans h).trans
      (sortMolecularBarcodes_perm l₂).symm)
  rw [hms]

/-- Witness for C10 at a concrete permuted pair. -/
theorem naive_partition_order_independent_witness :
    (naiveClusters 1 [((['A','C'],2) : MolB ℕ), ((['T','T'],3)), ((['A','A'],1))]).map
        msOf =
      (naiveClusters 1 [((['A','A'],1) : MolB ℕ), ((['A','C'],2)), ((['T','T'],3))]).map
        msOf :=
  naive_partition_order_independent
    [((['A','C'],2) : MolB ℕ), ((['T','T'],3)), ((['A','A'],1))]
    [((['A','A'],1) : MolB ℕ), ((['A','C'],2)), ((['T','T'],3))] 1 (by decide)

/-! ## C1: threshold 0 reduces every strategy to exact-barcode grouping -/

theorem hamming_distance_eq_zero_iff (a b : List Char) (h : a.length = b.length) :
    hamming_distance a b = 0 ↔ a = b := by
  induction a generalizing b with
  | nil =>
    cases b with
    | nil => simp [hamming_distance]
    | cons y ys => simp at h
  | cons x xs ih =>
    cases b with
    | nil => simp at h
    | cons y ys =>
      have hlen : xs.length = ys.length := by simpa using h
      by_cases hxy : x = y
      · subst hxy
        rw [show hamming_distance (x :: xs) (x :: ys) = hamming_distance xs ys from by
          simp [hamming_distance, List.countP_cons]]
        constructor
        · intro h0
          rw [(ih ys hlen).mp h0]
        · intro h0
          obtain ⟨-, h2⟩ := List.cons.inj h0
          exact (ih ys hlen).mpr h2
      · constructor
        · intro h0
          exfalso
          have hsucc : hamming_distance (x :: xs) (y :: ys) =
              hamming_distance xs ys + 1 := by
            simp [hamming_distance, List.countP_cons, hxy]
          omega
        · intro h0
          obtain ⟨h1, -⟩ := List.cons.inj h0
          exact absurd h1 hxy

theorem levenshtein_distance_eq_zero_iff (a b : List Char) :
    levenshtein_distance a b = 0 ↔ a = b := by
  induction a generalizing b with
  | nil =>
    cases b with
    | nil => simp [levenshtein_distance]
    | cons y ys => simp [levenshtein_distance]
  | cons x xs ih =>
    cases b with
    | nil => simp [levenshtein_distance]
    | cons y ys =>
      rw [levenshtein_distance]
      by_cases hxy : x = y
      · subst hxy
        rw [if_pos rfl]
        constructor
        · intro h0
          rw [(ih ys).mp h0]
        · intro h0
          exact (ih ys).mpr (by
            obtain ⟨-, h2⟩ := List.cons.inj h0
            exact h2)
      · rw [if_neg hxy]
        constructor
        · intro h0
          exact absurd h0 (by omega)
        · intro h0
          obtain ⟨h1, -⟩ := List.cons.inj h0
          exact absurd h1 hxy

theorem trieDist_eq_zero_iff (allow_indels : Bool) (a b : List Char)
    (h : a.length = b.length) : trieDist allow_indels a b = 0 ↔ a = b := by
  cases allow_indels with
  | false => simpa [trieDist] using hamming_distance_eq_zero_iff a b h
  | true => simpa [trieDist] using levenshtein_distance_eq_zero_iff a b

/-- When no two adjacent elements are `near`, the chained split degenerates
to singletons. -/
theorem chainSplit_singletons (near : α → α → Bool) :
    ∀ l : List α, List.Chain' (fun a b => near a b = false) l →
      chainSplit near l = l.map (fun k => [k]) := by
  intro l
  induction l with
  | nil => intro _; rfl
  | cons x xs ih =>
    intro hch
    cases xs with
    | nil => simp [chainSplit_singleton]
    | cons y ys =>
      rw [List.chain'_cons] at hch
      have hy : chainSplit near (y :: ys) = (y :: []) :: ys.map (fun k => [k]) := by
        rw [ih hch.2]
        rfl
      rw [chainSplit_cons_far hy hch.1, List.map_cons]
      rfl

/-- Exact-equality grouping of a multiset of records: one group per distinct
barcode, collecting every record carrying it.  A function of the multiset
alone, hence independent of input order. -/
def exactGroups (m : Multiset (MolB ρ)) : Multiset (Multiset (MolB ρ)) :=
  (Multiset.dedup (Multiset.map (fun x => x.1) m)).map
    (fun b => Multiset.filter (fun x => x.1 = b) m)

/-- At threshold 0 the naive clusterer partitions the records into groups of
exactly-equal barcodes. -/
theorem naiveClusters_zero_exactGroups (l : List (MolB ρ))
    (hlen : ∀ a ∈ l, ∀ b ∈ l, a.1.length = b.1.length) :
    msOf ((naiveClusters 0 l).map msOf) = exactGroups (msOf l) := by
  rw [naiveClusters_canonical]
  set ks₀ := ((sortMolecularBarcodes l).map (fun x => x.1)).dedup with hks₀
  have hms : msOf (sortMolecularBarcodes l) = msOf l :=
    Multiset.coe_eq_coe.mpr (sortMolecularBarcodes_perm l)
  have hkmem : ∀ k ∈ ks₀, ∃ a ∈ l, a.1 = k := by
    intro k hk
    obtain ⟨a, ha, hak⟩ := List.mem_map.mp (List.mem_dedup.mp hk)
    exact ⟨a, (sortMolecularBarcodes_perm l).mem_iff.mp ha, hak⟩
  have hchain : List.Chain' (fun b c =>
      (decide (hamming_distance b c ≤ 0) : Bool) = false) ks₀ := by
    refine List.Pairwise.chain' ?_
    refine List.Pairwise.imp_of_mem ?_ (List.nodup_dedup _)
    intro b c hb hc hbc
    obtain ⟨a₁, ha₁, rfl⟩ := hkmem b hb
    obtain ⟨a₂, ha₂, rfl⟩ := hkmem c hc
    simp only [decide_eq_false_iff_not, not_le]
    exact Nat.pos_of_ne_zero (fun h0 =>
      hbc ((hamming_distance_eq_zero_iff _ _ (hlen a₁ ha₁ a₂ ha₂)).mp h0))
  rw [chainSplit_singletons _ ks₀ hchain, List.map_map]
  show Multiset.map (fun k => Multiset.filter (fun x : MolB ρ => x.1 ∈ [k])
      (msOf (sortMolecularBarcodes l))) (msOf ks₀) = exactGroups (msOf l)
  rw [hms]
  have hptw : Multiset.map (fun k => Multiset.filter (fun x : MolB ρ => x.1 ∈ [k]) (msOf l))
      (msOf ks₀) =
      Multiset.map (fun k => Multiset.filter (fun x : MolB ρ => x.1 = k) (msOf l))
        (msOf ks₀) :=
    Multiset.map_congr rfl (fun k _ => Multiset.filter_congr (fun x _ => by simp))
  rw [hptw]
  have hks : (msOf ks₀ : Multiset (List Char)) =
      Multiset.dedup (Multiset.map (fun x : MolB ρ => x.1) (msOf l)) := by
    rw [hks₀,
      show (msOf (((sortMolecularBarcodes l).map (fun x => x.1)).dedup) :
        Multiset (List Char)) =
        Multiset.dedup (msOf ((sortMolecularBarcodes l).map (fun x => x.1))) from
        (Multiset.coe_dedup _).symm,
      show (msOf ((sortMolecularBarcodes l).map (fun x => x.1)) : Multiset (List Char)) =
        Multiset.map (fun x : MolB ρ => x.1) (msOf (sortMolecularBarcodes l)) from rfl,
      hms]
  rw [hks]
  rfl

theorem filter_eq_singleton_of_nodup (keys : List (List Char)) (q : List Char)
    (h : keys.Nodup) (hq : q ∈ keys) :
    keys.filter (fun k => decide (k = q)) = [q] := by
  induction keys with
  | nil => exact absurd hq (by simp)
  | cons k ks ih =>
    rw [List.nodup_cons] at h
    rcases List.mem_cons.mp hq with hq | hq
    · subst hq
      rw [List.filter_cons, if_pos (by simp)]
      rw [List.filter_eq_nil_iff.mpr]
      intro a ha
      simp only [decide_eq_true_eq]
      intro hak
      exact h.1 (hak ▸ ha)
    · have hkq : k ≠ q := fun he => h.1 (he ▸ hq)
      rw [List.filter_cons, if_neg (by simpa using hkq)]
      exact ih h.2 hq

/-- At threshold 0 the trie neighborhood of `q` is exactly the still-indexed
copy of `q` (if any): zero distance forces equality. -/
theorem find_zero_eq (d : List Char → List Char → ℕ) (hd : ∀ q, d q q = 0)
    (hiff : ∀ q k, q.length = k.length → (d q k = 0 ↔ q = k))
    (keys : List (List Char)) (q : List Char) :
    find_equal_length_optimized d keys q 0 = keys.filter (fun k => decide (k = q)) := by
  rw [find_equal_length_optimized]
  refine List.filter_congr ?_
  intro k _
  rw [decide_eq_decide]
  constructor
  · rintro ⟨hl, hle⟩
    exact ((hiff q k hl.symm).mp (Nat.le_zero.mp hle)).symm
  · intro hk
    subst hk
    exact ⟨rfl, by simp [hd]⟩

theorem nodup_msOf_cons_filter (keys : List (List Char)) (q : List Char)
    (h : keys.Nodup) (hq : q ∈ keys) :
    (msOf keys : Multiset (List Char)) =
      q ::ₘ msOf (keys.filter (fun k => decide (k ∉ [q]))) := by
  induction keys with
  | nil => exact absurd hq (by simp)
  | cons k ks ih =>
    rw [List.nodup_cons] at h
    rcases List.mem_cons.mp hq with hq | hq
    · subst hq
      rw [List.filter_cons, if_neg (by simp)]
      have hks : ks.filter (fun k => decide (k ∉ [q])) = ks := by
        rw [List.filter_eq_self]
        intro a ha
        simp only [decide_eq_true_eq, List.mem_singleton]
        intro he
        exact h.1 (he ▸ ha)
      rw [hks, msOf_cons]
    · have hkq : k ≠ q := fun he => h.1 (he ▸ hq)
      rw [List.filter_cons, if_pos (by simp [hkq])]
      rw [msOf_cons, msOf_cons, ih h.2 hq, Multiset.cons_swap]

theorem trieGatherRecords_singleton (full : List (MolB ρ)) (k : List Char) :
    trieGatherRecords full [k] = full.filter (fun x => decide (x.1 = k)) := by
  rw [trieGatherRecords, List.flatMap_cons]
  simp

/-- At threshold 0 the trie loop consumes each distinct barcode at its first
unconsumed occurrence and gathers exactly the records carrying it: the
resulting partition is the exact-barcode grouping of the key set. -/
theorem trieTrace_zero_partition (d : List Char → List Char → ℕ) (hd : ∀ q, d q q = 0)
    (hiff : ∀ q k, q.length = k.length → (d q k = 0 ↔ q = k)) (mcs : ℕ)
    (choiceR : List ρ → ρ) (full : List (MolB ρ)) :
    ∀ (todo : List (MolB ρ)) (keys : List (List Char)), keys.Nodup →
      (∀ k ∈ keys, k ∈ todo.map (fun x => x.1)) → (∀ r ∈ todo, r ∈ full) →
      msOf ((((trieTrace d 0 mcs choiceR full keys todo).map
          (fun s => s.original_records)).filter (fun c => !c.isEmpty)).map msOf) =
        Multiset.map (fun b => Multiset.filter (fun x : MolB ρ => x.1 = b) (msOf full))
          (msOf keys) := by
  intro todo
  induction todo with
  | nil =>
    intro keys hnd hmem _
    have hkeys : keys = [] := by
      cases keys with
      | nil => rfl
      | cons k ks => exact absurd (hmem k (by simp)) (by simp)
    subst hkeys
    rfl
  | cons r rs ih =>
    intro keys hnd hmem hsub
    by_cases hrk : r.1 ∈ keys
    · have hnbhd : find_equal_length_optimized d keys r.1 0 = [r.1] := by
        rw [find_zero_eq d hd hiff, filter_eq_singleton_of_nodup keys r.1 hnd hrk]
      have hstep : trieTrace d 0 mcs choiceR full keys (r :: rs) =
          ⟨keys, find_equal_length_optimized d keys r.1 0,
           trieSizeCluster full (find_equal_length_optimized d keys r.1 0),
           trieGatherRecords full (find_equal_length_optimized d keys r.1 0),
           if mcs ≤ trieSizeCluster full (find_equal_length_optimized d keys r.1 0) ∧
               ((trieGatherRecords full (find_equal_length_optimized d keys r.1 0)).map
                 (fun x => x.2)).isEmpty = false then
             [choiceR ((trieGatherRecords full
               (find_equal_length_optimized d keys r.1 0)).map (fun x => x.2))]
           else (trieGatherRecords full (find_equal_length_optimized d keys r.1 0)).map
             (fun x => x.2)⟩ ::
            trieTrace d 0 mcs choiceR full
              (keys.filter (fun k =>
                decide (k ∉ find_equal_length_optimized d keys r.1 0))) rs := rfl
      have hne : (trieGatherRecords full [r.1]).isEmpty = false := by
        rw [trieGatherRecords_singleton, List.isEmpty_eq_false_iff_exists_mem]
        exact ⟨r, List.mem_filter.mpr ⟨hsub r (by simp), by simp⟩⟩
      have hmem' : ∀ k ∈ keys.filter (fun k => decide (k ∉ [r.1])),
          k ∈ rs.map (fun x => x.1) := by
        intro k hk
        rw [List.mem_filter] at hk
        have hkne : k ≠ r.1 := by
          intro he
          have := hk.2
          rw [he] at this
          simp at this
        have := hmem k hk.1
        rw [List.map_cons] at this
        rcases List.mem_cons.mp this with h' | h'
        · exact absurd h' hkne
        · exact h'
      rw [hstep]
      simp only [List.map_cons, hnbhd]
      rw [List.filter_cons, if_pos (by simpa using hne)]
      rw [List.map_cons, msOf_cons]
      rw [ih (keys.filter (fun k => decide (k ∉ [r.1]))) (hnd.filter _) hmem'
        (fun r' hr' => hsub r' (List.mem_cons_of_mem _ hr'))]
      rw [nodup_msOf_cons_filter keys r.1 hnd hrk, Multiset.map_cons]
      congr 1
      rw [trieGatherRecords_singleton]
      rw [show (msOf (full.filter (fun x => decide (x.1 = r.1))) : Multiset (MolB ρ)) =
        ↑(full.filter (fun x => decide (x.1 = r.1))) from rfl, ← Multiset.filter_coe]
      rfl
    · have hnbhd : find_equal_length_optimized d keys r.1 0 = [] := by
        rw [find_zero_eq d hd hiff]
        rw [List.filter_eq_nil_iff]
        intro k hk
        simp only [decide_eq_true_eq]
        intro he
        exact hrk (he ▸ hk)
      have hstep : trieTrace d 0 mcs choiceR full keys (r :: rs) =
          ⟨keys, find_equal_length_optimized d keys r.1 0,
           trieSizeCluster full (find_equal_length_optimized d keys r.1 0),
           trieGatherRecords full (find_equal_length_optimized d keys r.1 0),
           if mcs ≤ trieSizeCluster full (find_equal_length_optimized d keys r.1 0) ∧
               ((trieGatherRecords full (find_equal_length_optimized d keys r.1 0)).map
                 (fun x => x.2)).isEmpty = false then
             [choiceR ((trieGatherRecords full
               (find_equal_length_optimized d keys r.1 0)).map (fun x => x.2))]
           else (trieGatherRecords full (find_equal_length_optimized d keys r.1 0)).map
             (fun x => x.2)⟩ ::
            trieTrace d 0 mcs choiceR full
              (keys.filter (fun k =>
                decide (k ∉ find_equal_length_optimized d keys r.1 0))) rs := rfl
      have hmem' : ∀ k ∈ keys, k ∈ rs.map (fun x => x.1) := by
        intro k hk
        have hkne : k ≠ r.1 := fun he => hrk (he ▸ hk)
        have := hmem k hk
        rw [List.map_cons] at this
        rcases List.mem_cons.mp this with h' | h'
        · exact absurd h' hkne
        · exact h'
      rw [hstep]
      simp only [List.map_cons, hnbhd]
      rw [show trieGatherRecords full ([] : List (List Char)) = [] from rfl]
      rw [List.filter_cons, if_neg (by simp)]
      rw [show keys.filter (fun k => decide (k ∉ ([] : List (List Char)))) = keys from by
        simp]
      exact ih keys hnd hmem' (fun r' hr' => hsub r' (List.mem_cons_of_mem _ hr'))

/-- At threshold 0 the trie clusterer partitions the records into groups of
exactly-equal barcodes. -/
theorem triePartition_zero_exactGroups (d : List Char → List Char → ℕ)
    (hd : ∀ q, d q q = 0)
    (hiff : ∀ q k, q.length = k.length → (d q k = 0 ↔ q = k)) (mcs : ℕ)
    (choiceR : List ρ → ρ) (l : List (MolB ρ)) :
    msOf ((triePartition d 0 mcs choiceR l).map msOf) = exactGroups (msOf l) := by
  rw [triePartition]
  rw [trieTrace_zero_partition d hd hiff mcs choiceR l l (trieInitialKeys l)
    (List.nodup_dedup _) (fun k hk => List.dedup_subset _ hk) (fun r hr => hr)]
  have hks : (msOf (trieInitialKeys l) : Multiset (List Char)) =
      Multiset.dedup (Multiset.map (fun x : MolB ρ => x.1) (msOf l)) := by
    rw [trieInitialKeys,
      show (msOf ((l.map (fun x => x.1)).dedup) : Multiset (List Char)) =
        Multiset.dedup (msOf (l.map (fun x => x.1))) from (Multiset.coe_dedup _).symm]
    rfl
  rw [hks]
  rfl

theorem dedup_map_block (b : List Char) :
    ∀ (c : List (MolB ρ)), c ≠ [] → (∀ a ∈ c, a.1 = b) →
      ∀ t : Multiset (List Char), b ∉ t →
        Multiset.dedup (Multiset.map (fun x : MolB ρ => x.1) (msOf c) + t) =
          b ::ₘ Multiset.dedup t := by
  intro c
  induction c with
  | nil => intro h; exact absurd rfl h
  | cons x c' ih =>
    intro _ hall t hbt
    have hx : x.1 = b := hall x (by simp)
    cases c' with
    | nil =>
      rw [msOf_cons, msOf_nil, Multiset.map_cons, Multiset.map_zero, Multiset.cons_add,
        zero_add, hx, Multiset.dedup_cons_of_not_mem hbt]
    | cons y c'' =>
      rw [msOf_cons, Multiset.map_cons, Multiset.cons_add, hx]
      have hbmem : b ∈ Multiset.map (fun x : MolB ρ => x.1) (msOf (y :: c'')) + t := by
        refine Multiset.mem_add.mpr (Or.inl ?_)
        refine Multiset.mem_map.mpr ⟨y, ?_, hall y (by simp)⟩
        rw [msOf_cons]
        simp
      rw [Multiset.dedup_cons_of_mem hbmem]
      exact ih (by simp) (fun a ha => hall a (List.mem_cons_of_mem _ ha)) t hbt

/-- Any partition of a record multiset into nonempty, barcode-uniform groups
with pairwise-distinct barcodes is the exact-barcode grouping.  This is the
uniqueness half of "mismatch-0 clustering reduces to exact-match grouping". -/
theorem exactGroups_of_partition :
    ∀ (P : List (List (MolB ρ))) (m : Multiset (MolB ρ)),
      msOf P.flatten = m →
      (∀ c ∈ P, c ≠ []) →
      (∀ c ∈ P, ∀ a ∈ c, ∀ b ∈ c, a.1 = b.1) →
      List.Pairwise (fun c₁ c₂ => ∀ a ∈ c₁, ∀ b ∈ c₂, a.1 ≠ b.1) P →
      msOf (P.map msOf) = exactGroups m := by
  intro P
  induction P with
  | nil =>
    intro m h1 _ _ _
    rw [← h1]
    rfl
  | cons c Ps ih =>
    intro m h1 h2 h3 h4
    subst h1
    rw [List.pairwise_cons] at h4
    have hcne : c ≠ [] := h2 c (by simp)
    obtain ⟨a₀, ha₀⟩ : ∃ a₀, a₀ ∈ c := by
      cases c with
      | nil => exact absurd rfl hcne
      | cons z zs => exact ⟨z, by simp⟩
    have hcb : ∀ a ∈ c, a.1 = a₀.1 := fun a ha => h3 c (by simp) a ha a₀ ha₀
    have hsplit : (msOf ((c :: Ps).flatten) : Multiset (MolB ρ)) =
        msOf c + msOf Ps.flatten := by
      rw [List.flatten_cons]
      exact (Multiset.coe_add c Ps.flatten).symm
    have hM'b : ∀ x : MolB ρ, x ∈ msOf Ps.flatten → x.1 ≠ a₀.1 := by
      intro x hx he
      obtain ⟨c', hc', hxc'⟩ := List.mem_flatten.mp (Multiset.mem_coe.mp hx)
      exact h4.1 c' hc' a₀ ha₀ x hxc' (he.symm)
    have hbM' : a₀.1 ∉ Multiset.map (fun x : MolB ρ => x.1) (msOf Ps.flatten) := by
      intro hmem
      obtain ⟨x, hx, hxe⟩ := Multiset.mem_map.mp hmem
      exact hM'b x hx hxe
    have hdedup : Multiset.dedup (Multiset.map (fun x : MolB ρ => x.1)
        (msOf c + msOf Ps.flatten)) =
        a₀.1 ::ₘ Multiset.dedup (Multiset.map (fun x : MolB ρ => x.1) (msOf Ps.flatten)) := by
      rw [Multiset.map_add]
      exact dedup_map_block a₀.1 c hcne hcb _ hbM'
    have hgrpb : Multiset.filter (fun x : MolB ρ => x.1 = a₀.1)
        (msOf c + msOf Ps.flatten) = msOf c := by
      have hfc : Multiset.filter (fun x : MolB ρ => x.1 = a₀.1) (msOf c) = msOf c :=
        Multiset.filter_eq_self.mpr (fun x hx => hcb x (Multiset.mem_coe.mp hx))
      have hfM : Multiset.filter (fun x : MolB ρ => x.1 = a₀.1) (msOf Ps.flatten) = 0 :=
        Multiset.filter_eq_nil.mpr (fun x hx => hM'b x hx)
      rw [Multiset.filter_add, hfc, hfM, add_zero]
    have hgrpk : ∀ k ∈ Multiset.dedup (Multiset.map (fun x : MolB ρ => x.1)
        (msOf Ps.flatten)),
        Multiset.filter (fun x : MolB ρ => x.1 = k) (msOf c + msOf Ps.flatten) =
          Multiset.filter (fun x : MolB ρ => x.1 = k) (msOf Ps.flatten) := by
      intro k hk
      have hkb : k ≠ a₀.1 := by
        intro he
        exact hbM' (he ▸ Multiset.mem_dedup.mp hk)
      have hfc0 : Multiset.filter (fun x : MolB ρ => x.1 = k) (msOf c) = 0 := by
        rw [Multiset.filter_eq_nil]
        intro x hx hxe
        exact hkb (hxe ▸ hcb x (Multiset.mem_coe.mp hx))
      rw [Multiset.filter_add, hfc0, zero_add]
    rw [List.map_cons, msOf_cons, exactGroups, hsplit, hdedup, Multiset.map_cons, hgrpb]
    rw [Multiset.map_congr rfl hgrpk]
    rw [ih (msOf Ps.flatten) rfl (fun c' hc' => h2 c' (List.mem_cons_of_mem _ hc'))
      (fun c' hc' => h3 c' (List.mem_cons_of_mem _ hc')) h4.2]
    rfl

/-- At threshold 0 (equal-length barcodes), inserting records one at a time
keeps the components nonoverlapping barcode groups drawn from the input. -/
theorem foldl_addToComponents_zero_inv (l : List (MolB ρ))
    (hlen : ∀ a ∈ l, ∀ b ∈ l, a.1.length = b.1.length) :
    ∀ (todo : List (MolB ρ)) (comps : List (List (MolB ρ))),
      (∀ r ∈ todo, r ∈ l) →
      (∀ c ∈ comps, ∀ a ∈ c, a ∈ l) →
      (∀ c ∈ comps, ∀ a ∈ c, ∀ b ∈ c, a.1 = b.1) →
      List.Pairwise (fun c₁ c₂ => ∀ a ∈ c₁, ∀ b ∈ c₂, a.1 ≠ b.1) comps →
      (∀ c ∈ todo.foldl (fun comps x => addToComponents 0 x comps) comps,
        ∀ a ∈ c, a ∈ l) ∧
      (∀ c ∈ todo.foldl (fun comps x => addToComponents 0 x comps) comps,
        ∀ a ∈ c, ∀ b ∈ c, a.1 = b.1) ∧
      List.Pairwise (fun c₁ c₂ => ∀ a ∈ c₁, ∀ b ∈ c₂, a.1 ≠ b.1)
        (todo.foldl (fun comps x => addToComponents 0 x comps) comps) := by
  intro todo
  induction todo with
  | nil =>
    intro comps _ hM hU hP
    exact ⟨hM, hU, hP⟩
  | cons x xs ih =>
    intro comps hsub hM hU hP
    rw [List.foldl_cons]
    have hxl : x ∈ l := hsub x (by simp)
    have hsel : ∀ c ∈ comps,
        c.any (fun y => decide (hamming_distance x.1 y.1 ≤ 0)) = true →
        ∀ a ∈ c, a.1 = x.1 := by
      intro c hc hany a ha
      obtain ⟨y, hy, hyd⟩ := List.any_eq_true.mp hany
      rw [decide_eq_true_eq] at hyd
      have hxy : x.1 = y.1 := (hamming_distance_eq_zero_iff x.1 y.1
        (hlen x hxl y (hM c hc y hy))).mp (Nat.le_zero.mp hyd)
      rw [hU c hc a ha y hy, ← hxy]
    have hnot : ∀ c ∈ comps,
        c.any (fun y => decide (hamming_distance x.1 y.1 ≤ 0)) = false →
        ∀ b ∈ c, b.1 ≠ x.1 := by
      intro c hc hany b hb he
      have hpb : (decide (hamming_distance x.1 b.1 ≤ 0) : Bool) = true := by
        rw [decide_eq_true_eq]
        have h0 : hamming_distance x.1 b.1 = 0 := by
          rw [he]
          exact hamming_distance_self x.1
        omega
      exact (List.any_eq_false.mp hany b hb) hpb
    refine ih (addToComponents 0 x comps)
      (fun r hr => hsub r (List.mem_cons_of_mem _ hr)) ?_ ?_ ?_
    · intro c hc a ha
      rw [addToComponents] at hc
      rcases List.mem_cons.mp hc with hc | hc
      · subst hc
        rcases List.mem_cons.mp ha with ha | ha
        · exact ha ▸ hxl
        · obtain ⟨c', hc', hac'⟩ := List.mem_flatten.mp ha
          exact hM c' (List.mem_filter.mp hc').1 a hac'
      · exact hM c (List.mem_filter.mp hc).1 a ha
    · intro c hc a ha b hb
      rw [addToComponents] at hc
      rcases List.mem_cons.mp hc with hc | hc
      · subst hc
        have hax : ∀ z ∈ x :: (comps.filter (fun c =>
            c.any (fun y => decide (hamming_distance x.1 y.1 ≤ 0)))).flatten,
            z.1 = x.1 := by
          intro z hz
          rcases List.mem_cons.mp hz with hz | hz
          · rw [hz]
          · obtain ⟨c', hc', hzc'⟩ := List.mem_flatten.mp hz
            have hmf := List.mem_filter.mp hc'
            exact hsel c' hmf.1 hmf.2 z hzc'
        rw [hax a ha, hax b hb]
      · exact hU c (List.mem_filter.mp hc).1 a ha b hb
    · rw [addToComponents]
      rw [List.pairwise_cons]
      constructor
      · intro c₂ hc₂ a ha b hb
        have hmf := List.mem_filter.mp hc₂
        have hbx : b.1 ≠ x.1 := hnot c₂ hmf.1 (Bool.not_eq_true' _ ▸ hmf.2) b hb
        have hax : a.1 = x.1 := by
          rcases List.mem_cons.mp ha with ha | ha
          · rw [ha]
          · obtain ⟨c', hc', hac'⟩ := List.mem_flatten.mp ha
            have hmf' := List.mem_filter.mp hc'
            exact hsel c' hmf'.1 hmf'.2 a hac'
        rw [hax]
        exact fun he => hbx he.symm
      · exact List.Pairwise.sublist (List.filter_sublist comps) hP

/-- At threshold 0 the modelled single-linkage components are the
exact-barcode groups. -/
theorem singleLinkage_zero_exactGroups (l : List (MolB ρ))
    (hlen : ∀ a ∈ l, ∀ b ∈ l, a.1.length = b.1.length) :
    msOf ((singleLinkageComponents 0 l).map msOf) = exactGroups (msOf l) := by
  obtain ⟨hMem, hUni, hPw⟩ := foldl_addToComponents_zero_inv l hlen l []
    (fun r hr => hr) (fun c hc => absurd hc (List.not_mem_nil c))
    (fun c hc => absurd hc (List.not_mem_nil c)) List.Pairwise.nil
  refine exactGroups_of_partition (singleLinkageComponents 0 l) (msOf l) ?_ ?_ ?_ ?_
  · exact Multiset.coe_eq_coe.mpr (singleLinkageComponents_flatten_perm 0 l)
  · exact foldl_addToComponents_ne_nil 0 l [] (by simp)
  · exact hUni
  · exact hPw

/-- At threshold 0 the hierarchical clusterer partitions the records into
groups of exactly-equal barcodes. -/
theorem hierPartition_zero_exactGroups (l : List (MolB ρ))
    (hlen : ∀ a ∈ l, ∀ b ∈ l, a.1.length = b.1.length) :
    msOf ((hierPartition 0 l).map msOf) = exactGroups (msOf l) := by
  rw [hierPartition]
  by_cases h : l.length ≤ 2
  · rw [if_pos h]
    exact naiveClusters_zero_exactGroups l hlen
  · rw [if_neg h]
    exact singleLinkage_zero_exactGroups l hlen

/-- C1: with `max_mismatches = 0` and equal-length barcodes, all three
strategies produce identical cluster membership — each partitions the
records into the groups of exactly-equal barcodes `exactGroups`, a function
of the record multiset alone and hence independent of the input order. -/
theorem threshold_zero_agreement (molecular_barcodes : List (MolB ρ))
    (min_cluster_size : ℕ) (choiceR : List ρ → ρ) (allow_indels : Bool)
    (hlen : ∀ a ∈ molecular_barcodes, ∀ b ∈ molecular_barcodes,
      a.1.length = b.1.length) :
    msOf ((naiveClusters 0 molecular_barcodes).map msOf) =
      exactGroups (msOf molecular_barcodes) ∧
    msOf ((triePartition (trieDist allow_indels) 0 min_cluster_size choiceR
        molecular_barcodes).map msOf) = exactGroups (msOf molecular_barcodes) ∧
    msOf ((hierPartition 0 molecular_barcodes).map msOf) =
      exactGroups (msOf molecular_barcodes) :=
  ⟨naiveClusters_zero_exactGroups molecular_barcodes hlen,
   triePartition_zero_exactGroups (trieDist allow_indels) (trieDist_self allow_indels)
     (fun q k hqk => trieDist_eq_zero_iff allow_indels q k hqk) min_cluster_size choiceR
     molecular_barcodes,
   hierPartition_zero_exactGroups molecular_barcodes hlen⟩

/-- Witness for C1 at a concrete input with a duplicated barcode. -/
theorem threshold_zero_agreement_witness :
    msOf ((naiveClusters 0 [((['A','A'],1) : MolB ℕ), ((['A','A'],2)), ((['A','T'],3)),
        ((['T','T'],4))]).map msOf) =
      exactGroups (msOf [((['A','A'],1) : MolB ℕ), ((['A','A'],2)), ((['A','T'],3)),
        ((['T','T'],4))]) ∧
    msOf ((triePartition (trieDist false) 0 2 (headChoice 0)
        [((['A','A'],1) : MolB ℕ), ((['A','A'],2)), ((['A','T'],3)),
          ((['T','T'],4))]).map msOf) =
      exactGroups (msOf [((['A','A'],1) : MolB ℕ), ((['A','A'],2)), ((['A','T'],3)),
        ((['T','T'],4))]) ∧
    msOf ((hierPartition 0 [((['A','A'],1) : MolB ℕ), ((['A','A'],2)), ((['A','T'],3)),
        ((['T','T'],4))]).map msOf) =
      exactGroups (msOf [((['A','A'],1) : MolB ℕ), ((['A','A'],2)), ((['A','T'],3)),
        ((['T','T'],4))]) :=
  threshold_zero_agreement
    [((['A','A'],1) : MolB ℕ), ((['A','A'],2)), ((['A','T'],3)), ((['T','T'],4))] 2
    (headChoice 0) false (by decide)

end STPipeline
